import Mathlib

/-!
# Shallow embedding of the BTreeIndex B+-tree (badgerdb project layout)

This file embeds the core of the `BTreeIndex` class found in
`src/Btree/src/btree.cpp` (the current revision of the duplicated sources;
`src/btree.cpp` is an older draft of the same class).  Pages are modelled as a
store mapping page numbers to typed nodes; the parallel on-page arrays
`keyArray[i]` / `ridArray[i]` of a leaf (resp. `keyArray[i]` /
`pageNoArray[i+1]` of an internal node) are modelled as a single list of pairs,
since every operation of the source moves a key together with its companion
slot.  `keyArray` and `pageNoArray` views are provided to state theorems in the
source's vocabulary.  Machine ints hold small values here (page numbers, slot
numbers, keys) and are modelled as `Nat` / `Int`.

The C++ recursion of `insert` and `find_leafnode` is bounded by the tree
height; the embedding makes this explicit with a fuel argument.  Exhausted
fuel leaves the state unchanged, so invariant-preservation theorems quantify
over all fuel values.
-/

namespace BTreeSpec

/-- Number of key slots in a B+-tree leaf for INTEGER keys:
`(Page::SIZE - sizeof(PageId)) / (sizeof(int) + sizeof(RecordId))`
with `Page::SIZE = 8192`, `sizeof(PageId) = 4`, `sizeof(int) = 4`,
`sizeof(RecordId) = 8`, i.e. `8188 / 12 = 682` (btree.h). -/
def INTARRAYLEAFSIZE : Nat := 682

/-- Number of key slots in a B+-tree non-leaf node for INTEGER keys:
`(Page::SIZE - sizeof(int) - sizeof(PageId)) / (sizeof(int) + sizeof(PageId))`
= `8184 / 8 = 1023` (btree.h). -/
def INTARRAYNONLEAFSIZE : Nat := 1023

/-- `RecordId { PageId page_number; SlotId slot_number; }`.  A slot number of
`0` marks an unused leaf slot. -/
structure RecordId where
  page_number : Nat
  slot_number : Nat
deriving DecidableEq, Repr

/-- The scan operator enumeration from btree.h. -/
inductive Operator where
  | LT
  | LTE
  | GTE
  | GT
deriving DecidableEq, Repr

/-- `PageKeyPair<int>`: a (page number, key) pair moved up by splits. -/
structure PageKeyPair where
  pageNo : Nat
  key : Int
deriving DecidableEq, Repr

/-- One leaf slot: `(keyArray[i], ridArray[i])`. -/
abbrev LeafSlot := Int × RecordId

/-- One non-leaf slot: `(keyArray[i], pageNoArray[i+1])`. -/
abbrev NonLeafSlot := Int × Nat

/-- A zeroed leaf slot, as found on a freshly allocated page and written by
`split_leaf` when it vacates slots. -/
def zeroLeafSlot : LeafSlot := (0, ⟨0, 0⟩)

/-- A zeroed non-leaf slot. -/
def zeroNonLeafSlot : NonLeafSlot := (0, 0)

/-- `LeafNodeInt`: `entries.get i = (keyArray[i], ridArray[i])`; a leaf page
always carries `INTARRAYLEAFSIZE` slots. -/
structure LeafNodeInt where
  entries : List LeafSlot
  rightSibPageNo : Nat
deriving DecidableEq, Repr

/-- `NonLeafNodeInt`: `page0 = pageNoArray[0]` and
`entries.get i = (keyArray[i], pageNoArray[i+1])`; a non-leaf page always
carries `INTARRAYNONLEAFSIZE` key slots and one extra page slot. -/
structure NonLeafNodeInt where
  level : Int
  page0 : Nat
  entries : List NonLeafSlot
deriving DecidableEq, Repr

/-- The `keyArray` view of a non-leaf node. -/
def NonLeafNodeInt.keyArray (n : NonLeafNodeInt) : List Int :=
  n.entries.map Prod.fst

/-- The `pageNoArray` view of a non-leaf node. -/
def NonLeafNodeInt.pageNoArray (n : NonLeafNodeInt) : List Nat :=
  n.page0 :: n.entries.map Prod.snd

/-- The `keyArray` view of a leaf node. -/
def LeafNodeInt.keyArray (l : LeafNodeInt) : List Int :=
  l.entries.map Prod.fst

/-- The `ridArray` view of a leaf node. -/
def LeafNodeInt.ridArray (l : LeafNodeInt) : List RecordId :=
  l.entries.map Prod.snd

/-- A page of the index file interpreted by context, exactly as the C++ casts
a `Page*` to `LeafNodeInt*` or `NonLeafNodeInt*`. -/
inductive Node where
  | leaf : LeafNodeInt → Node
  | nonleaf : NonLeafNodeInt → Node
deriving DecidableEq, Repr

/-- A freshly allocated (zero-filled) page viewed as a leaf. -/
def zeroLeaf : LeafNodeInt :=
  { entries := List.replicate INTARRAYLEAFSIZE zeroLeafSlot, rightSibPageNo := 0 }

/-- A freshly allocated (zero-filled) page viewed as a non-leaf node. -/
def zeroNonLeaf : NonLeafNodeInt :=
  { level := 0
    page0 := 0
    entries := List.replicate INTARRAYNONLEAFSIZE zeroNonLeafSlot }

/-- View a stored page as a leaf (the cast `(LeafNodeInt*) page`); pages that
do not hold leaf content are viewed as a zero page. -/
def asLeaf : Option Node → LeafNodeInt
  | some (Node.leaf l) => l
  | _ => zeroLeaf

/-- View a stored page as a non-leaf node (the cast `(NonLeafNodeInt*) page`);
pages that do not hold non-leaf content are viewed as a zero page. -/
def asNonLeaf : Option Node → NonLeafNodeInt
  | some (Node.nonleaf n) => n
  | _ => zeroNonLeaf

/-- The index state: the page store kept by the buffer manager / index file,
the next page number `allocPage` hands out, the in-memory `rootPageNum`
member, and the `rootPageNo` field of the meta page (page 1). -/
structure BTState where
  store : Nat → Option Node
  nextAlloc : Nat
  rootPageNum : Nat
  metaRootPageNo : Nat

/-- Overwrite one page of the store. -/
def BTState.write (st : BTState) (p : Nat) (n : Node) : BTState :=
  { st with store := fun q => if q = p then some n else st.store q }

/-! ## Node algorithms (btree.cpp lines 391-604) -/

/-- The loop body of `insert_leaf` (btree.cpp 432-457).  `pkey` is the key of
the original pair (the loop always compares `leafNode->keyArray[i] >
pair.key`); `container` is the entry currently carried (`pairContainer`).  On
an unused slot the carried entry is written and the loop breaks, leaving the
remaining slots untouched. -/
def insert_leaf_go (pkey : Int) (container : LeafSlot) : List LeafSlot → List LeafSlot
  | [] => []
  | e :: es =>
      if e.2.slot_number = 0 then container :: es
      else if e.1 > pkey then container :: insert_leaf_go pkey e es
      else e :: insert_leaf_go pkey container es

/-- `BTreeIndex::insert_leaf` (btree.cpp 432-457): shift-carry insertion into
a leaf that has room. -/
def insert_leaf (pair : LeafSlot) (leafNode : LeafNodeInt) : LeafNodeInt :=
  { leafNode with entries := insert_leaf_go pair.1 pair leafNode.entries }

/-- The loop body of `insert_nonleaf` (btree.cpp 404-426): the same
shift-carry, keyed on `pageNoArray[i+1] == 0` for the break and always
comparing against `pair2.key`. -/
def insert_nonleaf_go (p2key : Int) (container : NonLeafSlot) : List NonLeafSlot → List NonLeafSlot
  | [] => []
  | e :: es =>
      if e.2 = 0 then container :: es
      else if e.1 > p2key then container :: insert_nonleaf_go p2key e es
      else e :: insert_nonleaf_go p2key container es

/-- `BTreeIndex::insert_nonleaf` (btree.cpp 391-427).  On an empty node
(`pageNoArray[0] == 0`) it installs `keyArray[0] = pair2.key`,
`pageNoArray[0] = pair1.pageNo`, `pageNoArray[1] = pair2.pageNo`; otherwise
`pair1` is ignored and `pair2` is shift-carried in. -/
def insert_nonleaf (pair1 pair2 : PageKeyPair) (nonLeafNode : NonLeafNodeInt) : NonLeafNodeInt :=
  if nonLeafNode.page0 = 0 then
    { nonLeafNode with
      page0 := pair1.pageNo
      entries :=
        match nonLeafNode.entries with
        | [] => []
        | _ :: rest => (pair2.key, pair2.pageNo) :: rest }
  else
    { nonLeafNode with
      entries := insert_nonleaf_go pair2.key (pair2.key, pair2.pageNo) nonLeafNode.entries }

/-! ## Child selection

`BTreeIndex::insert` picks the child subtree with a loop over
`i < INTARRAYNONLEAFSIZE` (btree.cpp 307-340); `BTreeIndex::find_leafnode`
uses the same four branches but its loop runs only over
`i < INTARRAYNONLEAFSIZE - 1` (btree.cpp 674 and 729), so its `else` branch
(the `i == INTARRAYNONLEAFSIZE - 1` rule) is never reached.  Both are modelled
as recursions over the `keyArray` / `pageNoArray` views; the recursion looks
at `keyArray[i], keyArray[i+1]` and `pageNoArray[i], pageNoArray[i+1]` exactly
as the loops do. -/

/-- Selection loop of `insert` from index `i` on, given
`keys = [keyArray[i], …]` and `pages = [pageNoArray[i], …]`; the `i == 0`
branch is handled by the caller.  The singleton case is the loop's `else`
branch at `i == INTARRAYNONLEAFSIZE - 1`. -/
def selectChildInsertGo (k : Int) : List Int → List Nat → Option Nat
  | [k0], _ :: p1 :: _ => if k0 ≤ k then some p1 else none
  | k0 :: k1 :: ks, _ :: p1 :: ps =>
      if k0 ≤ k ∧ k < k1 then some p1
      else if k1 = 0 ∧ k0 ≤ k then some p1
      else selectChildInsertGo k (k1 :: ks) (p1 :: ps)
  | _, _ => none

/-- Child selection as performed by `BTreeIndex::insert` (btree.cpp 307-340). -/
def selectChildInsert (keys : List Int) (pages : List Nat) (k : Int) : Option Nat :=
  match keys, pages with
  | k0 :: _, p0 :: _ => if k0 > k then some p0 else selectChildInsertGo k keys pages
  | _, _ => none

/-- Selection loop of `find_leafnode`: identical branches, but the loop bound
`i < INTARRAYNONLEAFSIZE - 1` means the final index never runs its own
iteration, so the singleton case selects nothing. -/
def selectChildScanGo (k : Int) : List Int → List Nat → Option Nat
  | k0 :: k1 :: ks, _ :: p1 :: ps =>
      if k0 ≤ k ∧ k < k1 then some p1
      else if k1 = 0 ∧ k0 ≤ k then some p1
      else selectChildScanGo k (k1 :: ks) (p1 :: ps)
  | _, _ => none

/-- Child selection as performed by `BTreeIndex::find_leafnode`
(btree.cpp 669-780). -/
def selectChildScan (keys : List Int) (pages : List Nat) (k : Int) : Option Nat :=
  match keys, pages with
  | k0 :: _, p0 :: _ => if k0 > k then some p0 else selectChildScanGo k keys pages
  | _, _ => none

/-! ## Splits and the recursive insert (btree.cpp 276-604) -/

/-- `BTreeIndex::changeRootNum` (btree.cpp 596-604): update the in-memory
root page number and the meta page's `rootPageNo`. -/
def changeRootNum (st : BTState) (newRootNum : Nat) : BTState :=
  { st with rootPageNum := newRootNum, metaRootPageNo := newRootNum }

/-- `BTreeIndex::split_leaf` (btree.cpp 464-532).  Allocates a sibling page,
moves the upper `INTARRAYLEAFSIZE / 2` slots there (zeroing the vacated
slots), relinks the sibling chain, inserts the incoming pair on the proper
side, and either builds a new root (when the split page is the root) or
returns the promoted `(new sibling, sibling.keyArray[0])` pair. -/
def split_leaf (st : BTState) (leafNode : LeafNodeInt) (currNum : Nat)
    (pair : LeafSlot) : BTState × Option PageKeyPair :=
  let newSiblingNum := st.nextAlloc
  let st1 := { st with nextAlloc := st.nextAlloc + 1 }
  let half := INTARRAYLEAFSIZE / 2
  -- the sibling starts zero-filled; `rightSibPageNo` is copied only when the
  -- split leaf had a right sibling (a fresh page already holds 0 there)
  let siblingNode : LeafNodeInt :=
    { entries := (leafNode.entries.drop half).take half ++
        List.replicate (INTARRAYLEAFSIZE - half) zeroLeafSlot
      rightSibPageNo := leafNode.rightSibPageNo }
  let leafNode1 : LeafNodeInt :=
    { entries := leafNode.entries.take half ++
        List.replicate (INTARRAYLEAFSIZE - half) zeroLeafSlot
      rightSibPageNo := newSiblingNum }
  let intoLeft := pair.1 < ((siblingNode.entries.getD 0 zeroLeafSlot).1)
  let leafNode2 := if intoLeft then insert_leaf pair leafNode1 else leafNode1
  let siblingNode2 := if intoLeft then siblingNode else insert_leaf pair siblingNode
  -- the promoted key is read from the sibling after the conditional insert
  let promKey := (siblingNode2.entries.getD 0 zeroLeafSlot).1
  let st2 := (st1.write currNum (Node.leaf leafNode2)).write newSiblingNum
    (Node.leaf siblingNode2)
  if currNum = st.rootPageNum then
    let newRootNum := st2.nextAlloc
    let st3 := { st2 with nextAlloc := st2.nextAlloc + 1 }
    let newRootNode := insert_nonleaf ⟨currNum, promKey⟩ ⟨newSiblingNum, promKey⟩
      { zeroNonLeaf with level := 1 }
    (changeRootNum (st3.write newRootNum (Node.nonleaf newRootNode)) newRootNum, none)
  else
    (st2, some ⟨newSiblingNum, promKey⟩)

/-- `BTreeIndex::split_nonleaf` (btree.cpp 537-594).  Moves keys
`[N/2+1, N-1]` and page numbers `[N/2+1, N]` to a fresh sibling, zeroes the
vacated slots together with the middle key `keyArray[N/2]`, inserts the
incoming pair on the proper side, and promotes the middle key. -/
def split_nonleaf (st : BTState) (curpagenum : Nat) (nonLeafNode : NonLeafNodeInt)
    (pair : PageKeyPair) : BTState × Option PageKeyPair :=
  let newSiblingNum := st.nextAlloc
  let st1 := { st with nextAlloc := st.nextAlloc + 1 }
  let halfN := INTARRAYNONLEAFSIZE / 2
  let siblingNode : NonLeafNodeInt :=
    { level := nonLeafNode.level
      page0 := (nonLeafNode.entries.getD halfN zeroNonLeafSlot).2
      entries := nonLeafNode.entries.drop (halfN + 1) ++
        List.replicate (INTARRAYNONLEAFSIZE - (INTARRAYNONLEAFSIZE - (halfN + 1)))
          zeroNonLeafSlot }
  let nonLeafNode1 : NonLeafNodeInt :=
    { nonLeafNode with
      entries := nonLeafNode.entries.take halfN ++
        List.replicate (INTARRAYNONLEAFSIZE - halfN) zeroNonLeafSlot }
  let midKey := (nonLeafNode.entries.getD halfN zeroNonLeafSlot).1
  let intoLeft := pair.key < ((siblingNode.entries.getD 0 zeroNonLeafSlot).1)
  let nonLeafNode2 := if intoLeft then insert_nonleaf pair pair nonLeafNode1 else nonLeafNode1
  let siblingNode2 := if intoLeft then siblingNode else insert_nonleaf pair pair siblingNode
  let st2 := (st1.write curpagenum (Node.nonleaf nonLeafNode2)).write newSiblingNum
    (Node.nonleaf siblingNode2)
  if curpagenum = st.rootPageNum then
    let newRootNum := st2.nextAlloc
    let st3 := { st2 with nextAlloc := st2.nextAlloc + 1 }
    let newRootNode := insert_nonleaf ⟨curpagenum, midKey⟩ ⟨newSiblingNum, midKey⟩
      { zeroNonLeaf with level := 0 }
    (changeRootNum (st3.write newRootNum (Node.nonleaf newRootNode)) newRootNum, none)
  else
    (st2, some ⟨newSiblingNum, midKey⟩)

/-- `BTreeIndex::insert` (btree.cpp 297-385), with explicit fuel for the
recursion.  `isLeaf = 0` treats the current page as a non-leaf node (any
other value, as in the C++ `else`, treats it as a leaf).  After the child
call returns, the node is re-read from the store: the C++ keeps a pointer
into the pinned frame and therefore sees any in-place updates. -/
def insertRec : Nat → BTState → LeafSlot → Nat → Int → BTState × Option PageKeyPair
  | 0, st, _, _, _ => (st, none)
  | fuel + 1, st, pair, currNum, isLeaf =>
      if isLeaf = 0 then
        let nonleaf := asNonLeaf (st.store currNum)
        match selectChildInsert nonleaf.keyArray nonleaf.pageNoArray pair.1 with
        | none =>
            -- no branch fired: pagePairTmp stays NULL and the node is unpinned
            (st, none)
        | some childPg =>
            let res := insertRec fuel st pair childPg nonleaf.level
            match res.2 with
            | none => (res.1, none)
            | some pagePairTmp =>
                let nonleaf1 := asNonLeaf (res.1.store currNum)
                if nonleaf1.pageNoArray.getD INTARRAYNONLEAFSIZE 0 = 0 then
                  (res.1.write currNum
                    (Node.nonleaf (insert_nonleaf pagePairTmp pagePairTmp nonleaf1)), none)
                else
                  split_nonleaf res.1 currNum nonleaf1 pagePairTmp
      else
        let leafNode := asLeaf (st.store currNum)
        if (leafNode.entries.getD (INTARRAYLEAFSIZE - 1) zeroLeafSlot).2.slot_number = 0 then
          (st.write currNum (Node.leaf (insert_leaf pair leafNode)), none)
        else
          split_leaf st leafNode currNum pair

/-- `BTreeIndex::insertEntry` (btree.cpp 276-289): start the recursive insert
at the root, treating it as a leaf exactly when `rootPageNum == 2`. -/
def insertEntry (st : BTState) (fuel : Nat) (key : Int) (rid : RecordId) : BTState :=
  if st.rootPageNum = 2 then (insertRec fuel st (key, rid) st.rootPageNum 1).1
  else (insertRec fuel st (key, rid) st.rootPageNum 0).1

/-- The state built by the constructor for a fresh index after the first
record is placed (btree.cpp 36-108): meta page with `rootPageNo = 2`, and the
initial root leaf on page 2 holding the first `(key, rid)` pair. -/
def initialState (key : Int) (rid : RecordId) : BTState :=
  { store := fun p =>
      if p = 2 then
        some (Node.leaf
          { entries := (key, rid) :: List.replicate (INTARRAYLEAFSIZE - 1) zeroLeafSlot
            rightSibPageNo := 0 })
      else none
    nextAlloc := 3
    rootPageNum := 2
    metaRootPageNo := 2 }

/-- Index states reachable through the constructor followed by any sequence
of `insertEntry` calls (scans do not modify the tree). -/
inductive Reachable : BTState → Prop
  | init (key : Int) (rid : RecordId) : Reachable (initialState key rid)
  | step (st : BTState) (fuel : Nat) (key : Int) (rid : RecordId) :
      Reachable st → Reachable (insertEntry st fuel key rid)

/-- The constructor's bulk load: place the first record on the fresh root
leaf, then `insertEntry` each remaining record (btree.cpp 76-103). -/
def bulkLoad (fuel : Nat) : List (Int × RecordId) → Option BTState
  | [] => none
  | (k, r) :: rest => some (rest.foldl (fun st e => insertEntry st fuel e.1 e.2) (initialState k r))

/-! ## The scan engine (btree.cpp 608-862) -/

/-- The exceptions thrown by the index (plus the buffer manager's
page-pinned failure, which `flushFile` can raise). -/
inductive BtError where
  | badIndexInfo
  | badOpcodes
  | badScanrange
  | noSuchKeyFound
  | scanNotInitialized
  | indexScanCompleted
  | pagePinned
deriving DecidableEq, Repr

/-- The scan-specific members of `BTreeIndex`.  `nextEntry` and
`currentPageNum` are C++ ints (`endScan` stores `-1` in them). -/
structure ScanVars where
  scanExecuting : Bool
  nextEntry : Int
  currentPageNum : Int
  lowValInt : Int
  highValInt : Int
  lowOp : Operator
  highOp : Operator
deriving DecidableEq, Repr

/-- `BTreeIndex::checkValid` (btree.cpp 833-851). -/
def checkValid (v : ScanVars) (key : Int) : Bool :=
  if v.lowOp = Operator.GT ∧ v.highOp = Operator.LT then
    decide (key > v.lowValInt) && decide (key < v.highValInt)
  else if v.lowOp = Operator.GTE ∧ v.highOp = Operator.LT then
    decide (key ≥ v.lowValInt) && decide (key < v.highValInt)
  else if v.lowOp = Operator.GT ∧ v.highOp = Operator.LTE then
    decide (key > v.lowValInt) && decide (key ≤ v.highValInt)
  else
    decide (key ≥ v.lowValInt) && decide (key ≤ v.highValInt)

/-- `BTreeIndex::search_key_in_leaf` (btree.cpp 852-862): scan all
`INTARRAYLEAFSIZE` key slots (occupied or not) for the first one satisfying
`checkValid`; on success the scan cursor becomes `(PageNum, i)`. -/
def search_key_in_leaf (v : ScanVars) (leafNode : LeafNodeInt) (pageNum : Nat) :
    Option (Nat × Nat) :=
  match leafNode.keyArray.findIdx? (fun k => checkValid v k) with
  | some i => some (pageNum, i)
  | none => none

/-- `BTreeIndex::find_leafnode` (btree.cpp 669-780), with explicit fuel: at a
node whose children are internal (`nextnodeisleaf == 0`) recurse into the
selected child with the child's own `level`; at a node whose children are
leaves (`nextnodeisleaf == 1`) run `search_key_in_leaf` on the selected
child; any other level value reaches the final `return false`. -/
def find_leafnode (st : BTState) (v : ScanVars) :
    Nat → NonLeafNodeInt → Int → Option (Nat × Nat)
  | 0, _, _ => none
  | fuel + 1, nonleafnode, nextnodeisleaf =>
      if nextnodeisleaf = 0 then
        match selectChildScan nonleafnode.keyArray nonleafnode.pageNoArray v.lowValInt with
        | some pg =>
            let p := asNonLeaf (st.store pg)
            find_leafnode st v fuel p p.level
        | none => none
      else if nextnodeisleaf = 1 then
        match selectChildScan nonleafnode.keyArray nonleafnode.pageNoArray v.lowValInt with
        | some pg => search_key_in_leaf v (asLeaf (st.store pg)) pg
        | none => none
      else none

/-- The body of `BTreeIndex::endScan` after its `scanExecuting` check
(btree.cpp 822-832). -/
def endScanReset (v : ScanVars) : ScanVars :=
  { v with scanExecuting := false, currentPageNum := -1, nextEntry := -1 }

/-- `BTreeIndex::endScan` (btree.cpp 822-832). -/
def endScan (v : ScanVars) : Option BtError × ScanVars :=
  if v.scanExecuting = false then (some BtError.scanNotInitialized, v)
  else (none, endScanReset v)

/-- `BTreeIndex::startScan` (btree.cpp 608-668).  The low/high values are
stored into the scan members first; the opcode and range validations run
before any executing scan is ended; the descent then locates the first
cursor position or raises `NoSuchKeyFound` (ending the scan first).  The
returned pair carries the raised error (if any) together with the resulting
scan members. -/
def startScan (st : BTState) (fuel : Nat) (v : ScanVars) (lowValParm : Int)
    (lowOpParm : Operator) (highValParm : Int) (highOpParm : Operator) :
    Option BtError × ScanVars :=
  let v1 := { v with lowValInt := lowValParm, highValInt := highValParm }
  if ¬((lowOpParm = Operator.GT ∨ lowOpParm = Operator.GTE) ∧
      (highOpParm = Operator.LT ∨ highOpParm = Operator.LTE)) then
    (some BtError.badOpcodes, v1)
  else if v1.lowValInt > v1.highValInt then
    (some BtError.badScanrange, v1)
  else
    let v2 := if v1.scanExecuting then endScanReset v1 else v1
    let v3 := { v2 with scanExecuting := true, lowOp := lowOpParm, highOp := highOpParm }
    if st.rootPageNum = 2 then
      match search_key_in_leaf v3 (asLeaf (st.store st.rootPageNum)) st.rootPageNum with
      | some (pg, i) => (none, { v3 with currentPageNum := (pg : Int), nextEntry := (i : Int) })
      | none => (some BtError.noSuchKeyFound, endScanReset v3)
    else
      let root := asNonLeaf (st.store st.rootPageNum)
      match find_leafnode st v3 fuel root root.level with
      | some (pg, i) => (none, { v3 with currentPageNum := (pg : Int), nextEntry := (i : Int) })
      | none => (some BtError.noSuchKeyFound, endScanReset v3)

/-- `keyArray[i]` of a leaf for a C++ int index (negative indices are clamped
to 0; real scans keep `0 ≤ nextEntry`). -/
def LeafNodeInt.keyAt (l : LeafNodeInt) (i : Int) : Int :=
  (l.entries.getD i.toNat zeroLeafSlot).1

/-- `ridArray[i]` of a leaf for a C++ int index. -/
def LeafNodeInt.ridAt (l : LeafNodeInt) (i : Int) : RecordId :=
  (l.entries.getD i.toNat zeroLeafSlot).2

/-- Buffer-manager calls issued by `scanNext`. -/
inductive PinAction where
  | unPinPage : Int → PinAction
  | readPage : Int → PinAction
deriving DecidableEq, Repr

/-- Outcome of one `scanNext` call: a record id emitted through the out
parameter together with the updated scan members, or one of the two thrown
exceptions. -/
inductive ScanResult where
  | emit : RecordId → ScanVars → ScanResult
  | indexScanCompleted : ScanResult
  | scanNotInitialized : ScanResult
deriving DecidableEq, Repr

/-- The shared tail of `scanNext` (btree.cpp 806-816): read the current key,
emit and advance when `checkValid` holds, otherwise unpin and raise
`IndexScanCompleted`. -/
def scanEmitStep (st : BTState) (v : ScanVars) (acts : List PinAction) :
    ScanResult × List PinAction :=
  let currNode := asLeaf (st.store v.currentPageNum.toNat)
  let key := currNode.keyAt v.nextEntry
  if checkValid v key then
    (ScanResult.emit (currNode.ridAt v.nextEntry) { v with nextEntry := v.nextEntry + 1 }, acts)
  else
    (ScanResult.indexScanCompleted, acts ++ [PinAction.unPinPage v.currentPageNum])

/-- `BTreeIndex::scanNext` (btree.cpp 784-817).  When the cursor is past the
last occupied slot (`ridArray[nextEntry].page_number == 0` or
`nextEntry == INTARRAYLEAFSIZE`), the current leaf is unpinned and either the
scan completes (no right sibling — the source unpins a second time there) or
the sibling is pinned and the cursor reset to its slot 0; then the shared
emit step runs. -/
def scanNext (st : BTState) (v : ScanVars) : ScanResult × List PinAction :=
  if v.scanExecuting = false then (ScanResult.scanNotInitialized, [])
  else
    let currNode := asLeaf (st.store v.currentPageNum.toNat)
    if (currNode.ridAt v.nextEntry).page_number = 0 ∨
        v.nextEntry = (INTARRAYLEAFSIZE : Int) then
      if currNode.rightSibPageNo = 0 then
        (ScanResult.indexScanCompleted,
          [PinAction.unPinPage v.currentPageNum, PinAction.unPinPage v.currentPageNum])
      else
        let v1 := { v with currentPageNum := (currNode.rightSibPageNo : Int), nextEntry := 0 }
        scanEmitStep st v1
          [PinAction.unPinPage v.currentPageNum, PinAction.readPage v1.currentPageNum]
    else
      scanEmitStep st v []

/-- Bounds-checked read of `ridArray[i]`: `none` when the C++ access would be
out of the array's bounds. -/
def leafRidRead (l : LeafNodeInt) (i : Int) : Option RecordId :=
  if 0 ≤ i ∧ i < (l.entries.length : Int) then some ((l.entries.getD i.toNat zeroLeafSlot).2)
  else none

/-- Bounds-checked read of `keyArray[i]`. -/
def leafKeyRead (l : LeafNodeInt) (i : Int) : Option Int :=
  if 0 ≤ i ∧ i < (l.entries.length : Int) then some ((l.entries.getD i.toNat zeroLeafSlot).1)
  else none

/-- The shared tail of `scanNext` with bounds-checked array accesses. -/
def scanEmitStepChecked (st : BTState) (v : ScanVars) : Option ScanResult :=
  let currNode := asLeaf (st.store v.currentPageNum.toNat)
  match leafKeyRead currNode v.nextEntry with
  | none => none
  | some key =>
      if checkValid v key then
        match leafRidRead currNode v.nextEntry with
        | none => none
        | some r => some (ScanResult.emit r { v with nextEntry := v.nextEntry + 1 })
      else some ScanResult.indexScanCompleted

/-- `BTreeIndex::scanNext` instrumented for memory safety: every array access
of the source is bounds-checked and `none` means the call performs an
out-of-bounds access.  Per the source's short-circuit order, the condition
`ridArray[nextEntry].page_number == 0 || nextEntry == INTARRAYLEAFSIZE`
reads `ridArray[nextEntry]` before comparing `nextEntry` with
`INTARRAYLEAFSIZE`. -/
def scanNextChecked (st : BTState) (v : ScanVars) : Option ScanResult :=
  if v.scanExecuting = false then some ScanResult.scanNotInitialized
  else
    let currNode := asLeaf (st.store v.currentPageNum.toNat)
    match leafRidRead currNode v.nextEntry with
    | none => none
    | some r =>
        if r.page_number = 0 ∨ v.nextEntry = (INTARRAYLEAFSIZE : Int) then
          if currNode.rightSibPageNo = 0 then some ScanResult.indexScanCompleted
          else
            scanEmitStepChecked st
              { v with currentPageNum := (currNode.rightSibPageNo : Int), nextEntry := 0 }
        else scanEmitStepChecked st v

/-- Emit records by calling `scanNext` until it stops (the test harness's
retrieval loop). -/
def scanRun (st : BTState) : Nat → ScanVars → List RecordId
  | 0, _ => []
  | fuel + 1, v =>
      match (scanNext st v).1 with
      | ScanResult.emit r v1 => r :: scanRun st fuel v1
      | _ => []

/-! ## Destructor (btree.cpp 255-265) -/

/-- Modelled from the spec: the buffer manager (not part of src/) promises
that `flushFile` "writes every dirty frame back; fails if any frame is still
pinned" (spec section 6). -/
def flushFile (pinnedFrames : List Nat) : Except BtError Unit :=
  if pinnedFrames = [] then Except.ok () else Except.error BtError.pagePinned

/-- `BTreeIndex::~BTreeIndex` (btree.cpp 255-265): set `scanExecuting` to
false (without unpinning any leaf the scan holds), flush the index file, and
release it.  The destructor body contains no try/catch, so a failure of
`flushFile` propagates to the caller. -/
def destructorBTreeIndex (pinnedFrames : List Nat) : Except BtError Unit :=
  match flushFile pinnedFrames with
  | Except.ok _ => Except.ok ()
  | Except.error e => Except.error e

/-! ## Well-formedness predicates -/

/-- A list of leaf slots is well formed when it is an occupied block (every
record id has a nonzero slot number) whose keys are non-decreasing, followed
by zero-slot (unused) entries; the first unused slot therefore marks the end
of the occupied contiguous prefix. -/
def LeafSlotsWF (es : List LeafSlot) : Prop :=
  ∃ u fz, es = u ++ fz ∧ (∀ e ∈ u, e.2.slot_number ≠ 0) ∧
    (∀ e ∈ fz, e.2.slot_number = 0) ∧ (u.map Prod.fst).Pairwise (· ≤ ·)

/-- A well-formed leaf page: full-capacity slot array, occupied contiguous
prefix, sorted keys. -/
def LeafWF (l : LeafNodeInt) : Prop :=
  l.entries.length = INTARRAYLEAFSIZE ∧ LeafSlotsWF l.entries

/-- Every leaf page of the store is well formed (this is the sorted-leaves +
contiguous-prefix invariant of spec section 8). -/
def leavesWF (st : BTState) : Prop :=
  ∀ p l, st.store p = some (Node.leaf l) → LeafWF l

/-- The occupied keys of a leaf, read off its parallel arrays: the keys of
the slots before the first one whose record id has `slot_number == 0`. -/
def occupiedKeys (l : LeafNodeInt) : List Int :=
  (l.entries.takeWhile (fun e => e.2.slot_number != 0)).map Prod.fst

/-- The root-identity invariant of the index (claim C9): page 2 is always a
leaf; the root is page 2 or an internal page greater than 2; allocation has
moved past page 2; every child pointer stored in an internal node is below
the allocation frontier, never points at the current root, and points at
page 2 only from a `level == 1` node; pages at or above the allocation
frontier do not exist yet. -/
def RootInv (st : BTState) : Prop :=
  (∃ l, st.store 2 = some (Node.leaf l)) ∧
  (st.rootPageNum = 2 ∨
    (2 < st.rootPageNum ∧ ∃ n, st.store st.rootPageNum = some (Node.nonleaf n))) ∧
  2 < st.nextAlloc ∧ st.rootPageNum < st.nextAlloc ∧
  (∀ p n, st.store p = some (Node.nonleaf n) →
    ∀ q ∈ n.pageNoArray, q < st.nextAlloc ∧ q ≠ st.rootPageNum ∧ (q = 2 → n.level = 1)) ∧
  (∀ p, st.nextAlloc ≤ p → st.store p = none)

/-! ## Concrete states used to exercise the code

Each of these is the exact page image produced by the model itself on a
concrete bulk-load (checked by evaluation); they are written out literally so
that theorems about them evaluate quickly. -/

/-- `cnt` leaf slots holding the constant key `k` with record ids
`(ridPage, startSlot), (ridPage, startSlot+1), …`. -/
def constKeySlots (k : Int) (ridPage startSlot cnt : Nat) : List LeafSlot :=
  (List.range cnt).map (fun (i : Nat) => (k, (⟨ridPage, startSlot + i⟩ : RecordId)))

/-- `cnt` leaf slots holding ascending keys `start, start+1, …` with record
ids `(1, startSlot), (1, startSlot+1), …`. -/
def ascKeySlots (start : Int) (startSlot cnt : Nat) : List LeafSlot :=
  (List.range cnt).map (fun (i : Nat) => (start + (i : Int), (⟨1, startSlot + i⟩ : RecordId)))

/-- Pad leaf slots with zeroed slots up to the full leaf capacity. -/
def padLeaf (es : List LeafSlot) : List LeafSlot :=
  es ++ List.replicate (INTARRAYLEAFSIZE - es.length) zeroLeafSlot

/-- Pad non-leaf slots with zeroed slots up to the full node capacity. -/
def padNonLeaf (es : List NonLeafSlot) : List NonLeafSlot :=
  es ++ List.replicate (INTARRAYNONLEAFSIZE - es.length) zeroNonLeafSlot

/-- The index state after bulk-loading keys `1 .. 683` in ascending order
with record ids `(1, 1) .. (1, 683)`: leaf 2 holds keys `1 .. 341`, its right
sibling leaf 3 holds keys `342 .. 683`, and the root (page 4, level 1) holds
the single separator `342`.  This is literally the state computed by
`bulkLoad`. -/
def twoLeafState : BTState :=
  { store := fun p =>
      if p = 2 then
        some (Node.leaf { entries := padLeaf (ascKeySlots 1 1 341), rightSibPageNo := 3 })
      else if p = 3 then
        some (Node.leaf { entries := padLeaf (ascKeySlots 342 342 342), rightSibPageNo := 0 })
      else if p = 4 then
        some (Node.nonleaf { level := 1, page0 := 2, entries := padNonLeaf [(342, 3)] })
      else none
    nextAlloc := 5
    rootPageNum := 4
    metaRootPageNo := 4 }

/-- The index state after bulk-loading 683 copies of key `-5` (record ids
`(1, 1) .. (1, 683)`) followed by 683 copies of key `0` (record ids
`(2, 1) .. (2, 683)`): the leaf chain is 2 → 3 → 5 → 6 and the root (page 4,
level 1) holds the separators `[-5, -5, 0]` — the third separator is the
legitimate key `0`.  This is literally the state computed by `bulkLoad`. -/
def zeroSepState : BTState :=
  { store := fun p =>
      if p = 2 then
        some (Node.leaf { entries := padLeaf (constKeySlots (-5) 1 1 341), rightSibPageNo := 3 })
      else if p = 3 then
        some (Node.leaf { entries := padLeaf (constKeySlots (-5) 1 342 341), rightSibPageNo := 5 })
      else if p = 4 then
        some (Node.nonleaf
          { level := 1, page0 := 2, entries := padNonLeaf [(-5, 3), (-5, 5), (0, 6)] })
      else if p = 5 then
        some (Node.leaf
          { entries := padLeaf (constKeySlots (-5) 1 683 1 ++ constKeySlots 0 2 1 340 ++
              constKeySlots 0 2 683 1)
            rightSibPageNo := 6 })
      else if p = 6 then
        some (Node.leaf { entries := padLeaf (constKeySlots 0 2 341 342), rightSibPageNo := 0 })
      else none
    nextAlloc := 7
    rootPageNum := 4
    metaRootPageNo := 4 }

/-- `zeroSepState` after `insertEntry` of key `9` with record id `(3, 7)`. -/
def zeroSepStateAfter9 : BTState := insertEntry zeroSepState 3 9 ⟨3, 7⟩

/-- Idle scan members (no scan has run yet). -/
def idleVars : ScanVars :=
  { scanExecuting := false, nextEntry := -1, currentPageNum := -1,
    lowValInt := 0, highValInt := 0, lowOp := Operator.GT, highOp := Operator.LT }

/-- Scan members of an active all-inclusive range scan positioned at
`(page, slot)`. -/
def activeAt (page slot : Int) : ScanVars :=
  { scanExecuting := true, nextEntry := slot, currentPageNum := page,
    lowValInt := -1000000, highValInt := 1000000,
    lowOp := Operator.GTE, highOp := Operator.LTE }

/-- A completely full leaf: keys `0 .. 681`, record ids `(1, 1) .. (1, 682)`. -/
def fullLeaf : LeafNodeInt :=
  { entries := (List.range INTARRAYLEAFSIZE).map
      (fun (i : Nat) => ((i : Int), (⟨1, i + 1⟩ : RecordId)))
    rightSibPageNo := 0 }

/-- A single-leaf index whose root leaf (page 2) is completely full. -/
def fullLeafState : BTState :=
  { store := fun p => if p = 2 then some (Node.leaf fullLeaf) else none
    nextAlloc := 3, rootPageNum := 2, metaRootPageNo := 2 }

/-- A full internal node: keys `1 .. 1023` (all occupied and nonzero),
child pages `10 .. 1033`. -/
def fullNodeKeys : List Int :=
  (List.range INTARRAYNONLEAFSIZE).map (fun (i : Nat) => ((i : Int) + 1))

/-- The child page array paired with `fullNodeKeys`. -/
def fullNodePages : List Nat :=
  (List.range (INTARRAYNONLEAFSIZE + 1)).map (fun (i : Nat) => i + 10)

/-- The index of the first unused slot of a leaf slot list (the length of the
occupied prefix detected by `ridArray[i].slot_number == 0`); equals the list
length when every slot is occupied. -/
def leafOcc (es : List LeafSlot) : Nat :=
  (es.takeWhile (fun e => e.2.slot_number != 0)).length

/-- The first index whose slot is unused or whose key exceeds `pkey` — where
`insert_leaf` places the incoming pair. -/
def insertPos (pkey : Int) (es : List LeafSlot) : Nat :=
  (es.takeWhile (fun e => e.2.slot_number != 0 && decide (e.1 ≤ pkey))).length

/-- A four-slot leaf with two occupied slots, for witnesses. -/
def demoLeaf : LeafNodeInt :=
  { entries := [(1, ⟨1, 1⟩), (3, ⟨1, 2⟩), zeroLeafSlot, zeroLeafSlot], rightSibPageNo := 0 }

/-- The leaf page 2 holds after inserting key 3 into the fresh index holding
key 5: the two occupied slots in sorted order, then unused slots. -/
def sortedDemoLeaf : LeafNodeInt :=
  { entries := (3, ⟨1, 2⟩) :: (5, ⟨1, 1⟩) :: List.replicate (INTARRAYLEAFSIZE - 2) zeroLeafSlot
    rightSibPageNo := 0 }

/-! # Theorems -/

set_option maxRecDepth 16000
set_option maxHeartbeats 1000000

/-- **C1.** The round-trip claim fails on the code: `zeroSepState` is the
exact state `bulkLoad` produces for 683 copies of key `-5` followed by 683
copies of key `0` (683 = `INTARRAYLEAFSIZE` + 1 forces the splits), and its
root carries the separators `[-5, -5, 0]`.  Inserting key `9` is then
misrouted: the branch `keyArray[i+1] == 0 && keyArray[i] <= pair.key` of
`insert` treats the legitimate separator `0` as an empty slot and descends
into child `pageNoArray[2]` (leaf 5, which covers keys below `0`) instead of
the rightmost child.  Key `9` lands in leaf 5 at slot 342 while leaf 5's
right sibling (leaf 6) still holds the key-`0` run, so the subsequent
full-range scan emits the record of key `9` immediately followed by a record
of key `0` — not in non-decreasing key order. -/
theorem scan_after_bulkload_emits_out_of_order :
    (asLeaf (zeroSepStateAfter9.store 5)).entries.getD 342 zeroLeafSlot = (9, ⟨3, 7⟩) ∧
    (asLeaf (zeroSepStateAfter9.store 5)).rightSibPageNo = 6 ∧
    (asLeaf (zeroSepStateAfter9.store 5)).keyAt 342 = 9 ∧
    (asLeaf (zeroSepStateAfter9.store 6)).keyAt 0 = 0 ∧
    (scanNext zeroSepStateAfter9 (activeAt 5 342)).1 =
      ScanResult.emit ⟨3, 7⟩ { activeAt 5 342 with nextEntry := 343 } ∧
    (scanNext zeroSepStateAfter9 { activeAt 5 342 with nextEntry := 343 }).1 =
      ScanResult.emit ⟨2, 341⟩
        { activeAt 5 342 with currentPageNum := 6, nextEntry := 1 } :=
  ⟨by decide, by decide, by decide, by decide, by decide, by decide⟩

/-- **C2.** `startScan` raises `NoSuchKeyFound` even though a qualifying key
exists in the leaf to the right of the one the descent lands on:
`twoLeafState` is the exact state `bulkLoad` produces for keys `1 .. 683`,
whose left leaf (page 2) holds keys `1 .. 341` and right leaf (page 3) holds
`342 .. 683`.  For `startScan(341, GT, 350, LTE)` the descent lands on
page 2 (every key there is `≤ 341`), `search_key_in_leaf` finds nothing, and
`startScan` throws — yet key `342` in the right sibling satisfies the range
predicate. -/
theorem startScan_raises_noSuchKey_despite_qualifying_key :
    (startScan twoLeafState 2 idleVars 341 Operator.GT 350 Operator.LTE).1 =
      some BtError.noSuchKeyFound ∧
    (asLeaf (twoLeafState.store 2)).rightSibPageNo = 3 ∧
    (342 : Int) ∈ (asLeaf (twoLeafState.store 3)).keyArray ∧
    checkValid { idleVars with lowValInt := 341, highValInt := 350, lowOp := Operator.GT, highOp := Operator.LTE } 342 = true :=
  ⟨by decide, by decide, by decide, by decide⟩

/-- **C6.** The scan-start descent does not select the same child as
insert's search-within-node on a completely full internal node: for keys
`1 .. 1023` (children `10 .. 1033`) and probe `5000`, `insert`'s loop reaches
`i == INTARRAYNONLEAFSIZE - 1` and takes `pageNoArray[INTARRAYNONLEAFSIZE]`
(page 1033), while `find_leafnode`'s loop bound `i < INTARRAYNONLEAFSIZE - 1`
never runs that branch and selects no child at all. -/
theorem selectChild_scan_misses_last_rule :
    selectChildInsert fullNodeKeys fullNodePages 5000 = some 1033 ∧
    selectChildScan fullNodeKeys fullNodePages 5000 = none :=
  ⟨by decide, by decide⟩

/-- **C8.** The destructor does not swallow errors: with one frame still
pinned (exactly the situation when an active scan holds its leaf pinned),
the buffer manager's `flushFile` fails, and since `~BTreeIndex` has no
try/catch the error propagates to the caller; only with no pinned frame does
destruction succeed. -/
theorem destructor_propagates_flush_error :
    destructorBTreeIndex [2] = Except.error BtError.pagePinned ∧
    destructorBTreeIndex [] = Except.ok () :=
  ⟨rfl, rfl⟩

/-- **C10.** `scanNext` reads `ridArray` out of bounds on the call right
after the last slot of a completely full leaf was emitted: from cursor 681
(the last slot, `INTARRAYLEAFSIZE - 1`) the call emits and advances the
cursor to 682 = `INTARRAYLEAFSIZE`; the next call evaluates
`ridArray[nextEntry].page_number == 0` first (C++ `||` short-circuit), i.e.
reads `ridArray[682]`, which is out of bounds — the bounds-checked model
returns `none`. -/
theorem scanNext_out_of_bounds_read_after_full_leaf :
    scanNextChecked fullLeafState (activeAt 2 681) =
      some (ScanResult.emit ⟨1, 682⟩ { activeAt 2 681 with nextEntry := 682 }) ∧
    (682 : Int) = (INTARRAYLEAFSIZE : Int) ∧
    scanNextChecked fullLeafState { activeAt 2 681 with nextEntry := 682 } = none :=
  ⟨by decide, by decide, by decide⟩

/-- **C3.** When the cursor of an active scan is past the last occupied slot
of the current leaf (`ridArray[nextEntry].page_number == 0` or
`nextEntry == INTARRAYLEAFSIZE`), `scanNext` unpins the current leaf and:
with no right sibling it raises `IndexScanCompleted`; otherwise it follows
the sibling pointer, pins the sibling, resets the cursor to slot 0 and
evaluates the range predicate on the sibling's first key — emitting its
record id on success and raising `IndexScanCompleted` only on predicate
failure, never merely because the exhausted leaf had a right sibling. -/
theorem scanNext_sibling_follow (st : BTState) (v : ScanVars) (cur sib : LeafNodeInt)
    (hcur : asLeaf (st.store v.currentPageNum.toNat) = cur)
    (hexec : v.scanExecuting = true)
    (hexh : (cur.ridAt v.nextEntry).page_number = 0 ∨ v.nextEntry = (INTARRAYLEAFSIZE : Int))
    (hsib : asLeaf (st.store cur.rightSibPageNo) = sib) :
    (cur.rightSibPageNo = 0 →
      scanNext st v = (ScanResult.indexScanCompleted,
        [PinAction.unPinPage v.currentPageNum, PinAction.unPinPage v.currentPageNum])) ∧
    (cur.rightSibPageNo ≠ 0 →
      scanNext st v =
        if checkValid { v with currentPageNum := (cur.rightSibPageNo : Int), nextEntry := 0 }
            (sib.keyAt 0) then
          (ScanResult.emit (sib.ridAt 0)
            { v with currentPageNum := (cur.rightSibPageNo : Int), nextEntry := 1 },
            [PinAction.unPinPage v.currentPageNum,
             PinAction.readPage (cur.rightSibPageNo : Int)])
        else
          (ScanResult.indexScanCompleted,
            [PinAction.unPinPage v.currentPageNum,
             PinAction.readPage (cur.rightSibPageNo : Int),
             PinAction.unPinPage (cur.rightSibPageNo : Int)])) := by
  constructor
  · intro h0
    simp [scanNext, hexec, hcur, hexh, h0]
  · intro hne
    rcases hexh with h | h
    · simp only [LeafNodeInt.ridAt, List.getD_eq_getElem?_getD] at h
      simp [scanNext, scanEmitStep, hexec, hcur, hne, hsib, h, LeafNodeInt.keyAt,
        LeafNodeInt.ridAt]
    · simp [scanNext, scanEmitStep, hexec, hcur, hne, hsib, h, LeafNodeInt.keyAt,
        LeafNodeInt.ridAt]

/-- Witness for C3: on `twoLeafState` with an exhausted cursor on leaf 2
(slot 341 is the first unused slot), `scanNext` follows the sibling pointer
to leaf 3 and emits the record of key 342. -/
theorem scanNext_sibling_follow_witness :
    scanNext twoLeafState (activeAt 2 341) =
      (ScanResult.emit ⟨1, 342⟩ { activeAt 2 341 with currentPageNum := 3, nextEntry := 1 },
        [PinAction.unPinPage 2, PinAction.readPage 3]) := by
  have h := scanNext_sibling_follow twoLeafState (activeAt 2 341)
    (asLeaf (twoLeafState.store ((activeAt 2 341).currentPageNum.toNat)))
    (asLeaf (twoLeafState.store
      (asLeaf (twoLeafState.store ((activeAt 2 341).currentPageNum.toNat))).rightSibPageNo))
    rfl rfl (by decide) rfl
  exact (h.2 (by decide)).trans (by decide)

/-- **C7.** `startScan` validates the operators (else `BadOpcodes`) and then
the range (else `BadScanRange`) before it ends any currently executing scan:
a failed validation returns with only the `lowValInt` / `highValInt` members
overwritten, so `scanExecuting`, the cursor (`nextEntry`,
`currentPageNum`) and the previous operators are left exactly as they were. -/
theorem startScan_validation_order (st : BTState) (fuel : Nat) (v : ScanVars)
    (lowV highV : Int) (lowO highO : Operator) :
    (¬((lowO = Operator.GT ∨ lowO = Operator.GTE) ∧
        (highO = Operator.LT ∨ highO = Operator.LTE)) →
      startScan st fuel v lowV lowO highV highO =
        (some BtError.badOpcodes, { v with lowValInt := lowV, highValInt := highV })) ∧
    (((lowO = Operator.GT ∨ lowO = Operator.GTE) ∧
        (highO = Operator.LT ∨ highO = Operator.LTE)) → lowV > highV →
      startScan st fuel v lowV lowO highV highO =
        (some BtError.badScanrange, { v with lowValInt := lowV, highValInt := highV })) := by
  constructor
  · intro h
    simp [startScan, h]
  · intro h1 h2
    simp [startScan, h1, h2]

/-- Witness for C7: on an active scan with cursor `(page 2, slot 5)`, a
`(LT, LT)` call raises `BadOpcodes` and a `GT 500 .. LT 400` call raises
`BadScanRange`; in both cases the scan stays active with its cursor intact
(only the low/high values are overwritten). -/
theorem startScan_validation_order_witness :
    startScan twoLeafState 2 (activeAt 2 5) 100 Operator.LT 200 Operator.LT =
      (some BtError.badOpcodes,
        { activeAt 2 5 with lowValInt := 100, highValInt := 200 }) ∧
    startScan twoLeafState 2 (activeAt 2 5) 500 Operator.GT 400 Operator.LT =
      (some BtError.badScanrange,
        { activeAt 2 5 with lowValInt := 500, highValInt := 400 }) :=
  ⟨(startScan_validation_order twoLeafState 2 (activeAt 2 5) 100 200
      Operator.LT Operator.LT).1 (by decide),
   (startScan_validation_order twoLeafState 2 (activeAt 2 5) 500 400
      Operator.GT Operator.LT).2 (by decide) (by decide)⟩

/-! ## The shift-carry loop of insert_leaf (claims C5 and C4) -/

theorem dropWhile_head_false {α : Type} (p : α → Bool) (l : List α) (a : α) (as : List α)
    (h : l.dropWhile p = a :: as) : p a = false := by
  induction l with
  | nil => simp [List.dropWhile] at h
  | cons x xs ih =>
      rw [List.dropWhile_cons] at h
      by_cases hx : p x
      · rw [if_pos hx] at h
        exact ih h
      · rw [if_neg hx] at h
        injection h with h1 _
        subst h1
        simpa using hx

theorem takeWhile_and {α : Type} (p q : α → Bool) (l : List α) :
    l.takeWhile (fun e => p e && q e) = (l.takeWhile p).takeWhile q := by
  induction l with
  | nil => rfl
  | cons x xs ih =>
      by_cases hp : p x
      · by_cases hq : q x
        · simp [List.takeWhile_cons, hp, hq, ih]
        · simp [List.takeWhile_cons, hp, hq]
      · simp [List.takeWhile_cons, hp]

/-- The cascade phase of the `insert_leaf` loop: once the carried entry is
in hand, every remaining occupied slot (all of key greater than the probe)
is displaced one slot to the right, and the final carry lands on the first
unused slot; slots after it are untouched. -/
theorem insert_leaf_go_shift (pkey : Int) (c : LeafSlot) (u2 : List LeafSlot)
    (fh : LeafSlot) (ft : List LeafSlot)
    (hu2 : ∀ e ∈ u2, e.2.slot_number ≠ 0 ∧ pkey < e.1) (hfh : fh.2.slot_number = 0) :
    insert_leaf_go pkey c (u2 ++ fh :: ft) = c :: (u2 ++ ft) := by
  induction u2 generalizing c with
  | nil => simp [insert_leaf_go, hfh]
  | cons e u2' ih =>
      obtain ⟨h1, h2⟩ := hu2 e (List.mem_cons_self e u2')
      simp only [List.cons_append, insert_leaf_go]
      rw [if_neg h1, if_pos h2]
      simp [ih e (fun x hx => hu2 x (List.mem_cons_of_mem _ hx))]

/-- The whole `insert_leaf` loop on a decomposed slot list: the occupied
slots with key at most the probe are kept in place, the pair lands right
after them, the occupied slots with greater key shift one slot right, and
the slots after the first unused one are untouched. -/
theorem insert_leaf_go_split (pkey : Int) (rid : RecordId) (u1 u2 : List LeafSlot)
    (fh : LeafSlot) (ft : List LeafSlot)
    (hu1 : ∀ e ∈ u1, e.2.slot_number ≠ 0 ∧ ¬(pkey < e.1))
    (hu2 : ∀ e ∈ u2, e.2.slot_number ≠ 0 ∧ pkey < e.1)
    (hfh : fh.2.slot_number = 0) :
    insert_leaf_go pkey (pkey, rid) (u1 ++ (u2 ++ fh :: ft)) =
      u1 ++ ((pkey, rid) :: (u2 ++ ft)) := by
  induction u1 with
  | nil => simpa using insert_leaf_go_shift pkey (pkey, rid) u2 fh ft hu2 hfh
  | cons e u1' ih =>
      obtain ⟨h1, h2⟩ := hu1 e (List.mem_cons_self e u1')
      simp only [List.cons_append, insert_leaf_go]
      rw [if_neg h1, if_neg h2]
      simp [ih (fun x hx => hu1 x (List.mem_cons_of_mem _ hx))]

/-- `insert_leaf`'s loop, in the index language of the source: the incoming
pair lands at the first index whose slot is unused or whose key is greater
than the pair's, the displaced occupied entries shift one slot right
(consuming the first unused slot), and all other slots are unchanged. -/
theorem insert_leaf_eq (pair : LeafSlot) (es : List LeafSlot)
    (hsorted : ((es.takeWhile (fun e => e.2.slot_number != 0)).map Prod.fst).Pairwise (· ≤ ·))
    (hcontig : ∀ e ∈ es.dropWhile (fun e => e.2.slot_number != 0), e.2.slot_number = 0)
    (hroom : leafOcc es < es.length) :
    insert_leaf_go pair.1 pair es =
      es.take (insertPos pair.1 es) ++ pair ::
        ((es.drop (insertPos pair.1 es)).take (leafOcc es - insertPos pair.1 es) ++
          es.drop (leafOcc es + 1)) := by
  have hsplitf := (List.takeWhile_append_dropWhile
    (p := fun e : LeafSlot => e.2.slot_number != 0) (l := es)).symm
  set pu : LeafSlot → Bool := fun e => e.2.slot_number != 0 with hpu
  set leb : LeafSlot → Bool := fun e => decide (e.1 ≤ pair.1) with hleb
  set t : List LeafSlot := es.takeWhile pu with ht
  set f : List LeafSlot := es.dropWhile pu with hf
  set u1 : List LeafSlot := t.takeWhile leb with hu1d
  set u2 : List LeafSlot := t.dropWhile leb with hu2d
  have hsplitt : t = u1 ++ u2 := (List.takeWhile_append_dropWhile (p := leb) (l := t)).symm
  have hlen_t : leafOcc es = t.length := rfl
  have hfne : f ≠ [] := by
    intro hfe
    have hlen : es.length = t.length := by
      conv_lhs => rw [hsplitf]
      rw [hfe, List.append_nil]
    rw [hlen_t, hlen] at hroom
    exact lt_irrefl _ hroom
  obtain ⟨fh, ft, hfht⟩ := List.exists_cons_of_ne_nil hfne
  have hfh : fh.2.slot_number = 0 := hcontig fh (by rw [hfht]; exact List.mem_cons_self _ _)
  have hft : ∀ e ∈ ft, e.2.slot_number = 0 := fun e he =>
    hcontig e (by rw [hfht]; exact List.mem_cons_of_mem _ he)
  have hmem_t : ∀ e ∈ t, e.2.slot_number ≠ 0 := by
    intro e he
    have := List.mem_takeWhile_imp he
    simpa [hpu] using this
  have hu1 : ∀ e ∈ u1, e.2.slot_number ≠ 0 ∧ ¬(pair.1 < e.1) := by
    intro e he
    have het : e ∈ t := (List.takeWhile_prefix leb).subset he
    refine ⟨hmem_t e het, ?_⟩
    have := List.mem_takeWhile_imp he
    simp only [hleb, decide_eq_true_eq] at this
    exact not_lt_of_ge this
  have hu2 : ∀ e ∈ u2, e.2.slot_number ≠ 0 ∧ pair.1 < e.1 := by
    intro e he
    have het : e ∈ t := by
      rw [hsplitt]
      exact List.mem_append_right _ he
    refine ⟨hmem_t e het, ?_⟩
    rw [hu2d] at he
    match hu2e : List.dropWhile leb t with
    | [] => rw [hu2e] at he; cases he
    | h2 :: t2 =>
        have hh2 : leb h2 = false := dropWhile_head_false leb t h2 t2 hu2e
        have hh2lt : pair.1 < h2.1 := by
          simp only [hleb, decide_eq_false_iff_not, not_le] at hh2
          exact hh2
        rw [hu2e] at he
        rcases List.mem_cons.mp he with rfl | he2
        · exact hh2lt
        · -- later occupied keys dominate the first one by sortedness
          have hpw : ((u1 ++ u2).map Prod.fst).Pairwise (· ≤ ·) := by
            rw [← hsplitt]; exact hsorted
          rw [List.map_append] at hpw
          have hpw2 : (u2.map Prod.fst).Pairwise (· ≤ ·) :=
            (List.pairwise_append.mp hpw).2.1
          rw [hu2d, hu2e, List.map_cons] at hpw2
          have hle2 : h2.1 ≤ e.1 :=
            List.rel_of_pairwise_cons hpw2 (List.mem_map_of_mem Prod.fst he2)
          exact lt_of_lt_of_le hh2lt hle2
  have hj : insertPos pair.1 es = u1.length := by
    unfold insertPos
    rw [hu1d, ht]
    rw [← takeWhile_and]
  have hm : leafOcc es = u1.length + u2.length := by
    rw [hlen_t, hsplitt, List.length_append]
  have hes : es = u1 ++ (u2 ++ (fh :: ft)) := by
    rw [hsplitf, hsplitt, hfht, List.append_assoc]
  have htake : es.take (insertPos pair.1 es) = u1 := by
    rw [hj, hes]
    simp [List.take_left]
  have hdrop : es.drop (insertPos pair.1 es) = u2 ++ (fh :: ft) := by
    rw [hj, hes]
    simp [List.drop_left]
  have htake2 : (es.drop (insertPos pair.1 es)).take (leafOcc es - insertPos pair.1 es) = u2 := by
    rw [hdrop, hm, hj, Nat.add_sub_cancel_left]
    simp [List.take_left]
  have hdrop2 : es.drop (leafOcc es + 1) = ft := by
    have h1 : es.drop (leafOcc es) = fh :: ft := by
      rw [hm, hes]
      have : u1.length + u2.length = (u1 ++ u2).length := by rw [List.length_append]
      rw [this, ← List.append_assoc]
      simp [List.drop_left]
    calc es.drop (leafOcc es + 1) = (es.drop (leafOcc es)).drop 1 := by
          rw [List.drop_drop, Nat.add_comm]
      _ = ft := by rw [h1]; rfl
  rw [htake, htake2, hdrop2, hes]
  have := insert_leaf_go_split pair.1 pair.2 u1 u2 fh ft hu1 hu2 hfh
  simpa using this

/-- **C5.** On a leaf whose occupied slots are sorted and form a contiguous
prefix and which has at least one unused slot, `insert_leaf` places the
incoming pair at the first index whose slot is unused or whose key exceeds
the pair's key, shifts the displaced occupied entries exactly one slot to
the right (consuming the first unused slot), and leaves all other slots
unchanged; equal-key entries keep insertion order since the pair lands after
every occupied key `≤ pair.key`. -/
theorem insert_leaf_places_at_first_greater (pair : LeafSlot) (l : LeafNodeInt)
    (hsorted : (occupiedKeys l).Pairwise (· ≤ ·))
    (hcontig : ∀ e ∈ l.entries.dropWhile (fun e => e.2.slot_number != 0),
      e.2.slot_number = 0)
    (hfree : ∃ e ∈ l.entries, e.2.slot_number = 0) :
    (insert_leaf pair l).entries =
      l.entries.take (insertPos pair.1 l.entries) ++ pair ::
        ((l.entries.drop (insertPos pair.1 l.entries)).take
            (leafOcc l.entries - insertPos pair.1 l.entries) ++
          l.entries.drop (leafOcc l.entries + 1)) := by
  have hroom : leafOcc l.entries < l.entries.length := by
    by_contra hnot
    have hle : leafOcc l.entries ≤ l.entries.length := (List.takeWhile_prefix _).length_le
    have heq : leafOcc l.entries = l.entries.length := le_antisymm hle (le_of_not_lt hnot)
    have hall : l.entries.takeWhile (fun e => e.2.slot_number != 0) = l.entries :=
      (List.takeWhile_prefix _).eq_of_length heq
    obtain ⟨e, he, hz⟩ := hfree
    have : e ∈ l.entries.takeWhile (fun e => e.2.slot_number != 0) := by rw [hall]; exact he
    have := List.mem_takeWhile_imp this
    simp [hz] at this
  exact insert_leaf_eq pair l.entries hsorted hcontig hroom

/-- Witness for C5: inserting key 2 into the leaf `[1, 3, _, _]` lands at
index 1, shifting the key-3 entry right. -/
theorem insert_leaf_places_witness :
    (insert_leaf ((2 : Int), (⟨1, 9⟩ : RecordId)) demoLeaf).entries =
      [(1, ⟨1, 1⟩), (2, ⟨1, 9⟩), (3, ⟨1, 2⟩), zeroLeafSlot] := by
  have h := insert_leaf_places_at_first_greater ((2 : Int), (⟨1, 9⟩ : RecordId)) demoLeaf
    (by decide) (by decide) (by decide)
  exact h.trans (by decide)

/-! ## Leaf well-formedness is preserved by every insert (claim C4) -/

theorem takeWhile_append_all {α : Type} (p : α → Bool) (l1 l2 : List α)
    (h : ∀ a ∈ l1, p a = true) : (l1 ++ l2).takeWhile p = l1 ++ l2.takeWhile p := by
  induction l1 with
  | nil => simp
  | cons x xs ih =>
      have hx := h x (List.mem_cons_self x xs)
      simp [List.takeWhile_cons, hx, ih (fun a ha => h a (List.mem_cons_of_mem _ ha))]

theorem dropWhile_append_all {α : Type} (p : α → Bool) (l1 l2 : List α)
    (h : ∀ a ∈ l1, p a = true) : (l1 ++ l2).dropWhile p = l2.dropWhile p := by
  induction l1 with
  | nil => simp
  | cons x xs ih =>
      have hx := h x (List.mem_cons_self x xs)
      simp [List.dropWhile_cons, hx, ih (fun a ha => h a (List.mem_cons_of_mem _ ha))]

theorem takeWhile_nil_of_false {α : Type} (p : α → Bool) (l : List α)
    (h : ∀ a ∈ l, p a = false) : l.takeWhile p = [] := by
  cases l with
  | nil => rfl
  | cons x xs => simp [List.takeWhile_cons, h x (List.mem_cons_self x xs)]

theorem dropWhile_subset_self {α : Type} (p : α → Bool) (l : List α) :
    ∀ a ∈ l.dropWhile p, a ∈ l := by
  induction l with
  | nil => simp [List.dropWhile]
  | cons x xs ih =>
      intro a ha
      rw [List.dropWhile_cons] at ha
      by_cases hx : p x
      · rw [if_pos hx] at ha
        exact List.mem_cons_of_mem _ (ih a ha)
      · rw [if_neg hx] at ha
        exact ha

/-- A zero-filled page viewed as a leaf is well formed. -/
theorem LeafWF_zeroLeaf : LeafWF zeroLeaf := by
  refine ⟨by simp [zeroLeaf], [], List.replicate INTARRAYLEAFSIZE zeroLeafSlot, by simp [zeroLeaf], by simp, ?_, by simp⟩
  intro e he
  rw [List.eq_of_mem_replicate he]
  rfl

theorem LeafWF_asLeaf (st : BTState) (p : Nat) (hWF : leavesWF st) :
    LeafWF (asLeaf (st.store p)) := by
  cases hs : st.store p with
  | none => simpa [asLeaf] using LeafWF_zeroLeaf
  | some nd =>
      cases nd with
      | leaf l => simpa [asLeaf] using hWF p l hs
      | nonleaf n => simpa [asLeaf] using LeafWF_zeroLeaf

/-- Splitting a used, sorted block at the probe key: the kept prefix has keys
at most the probe, the dropped suffix has keys above it. -/
theorem sorted_split_by_key (pkey : Int) (u : List LeafSlot)
    (hused : ∀ e ∈ u, e.2.slot_number ≠ 0)
    (hsorted : (u.map Prod.fst).Pairwise (· ≤ ·)) :
    (∀ e ∈ u.takeWhile (fun e => decide (e.1 ≤ pkey)), e.2.slot_number ≠ 0 ∧ ¬(pkey < e.1)) ∧
    (∀ e ∈ u.dropWhile (fun e => decide (e.1 ≤ pkey)), e.2.slot_number ≠ 0 ∧ pkey < e.1) := by
  constructor
  · intro e he
    have het : e ∈ u := (List.takeWhile_prefix _).subset he
    refine ⟨hused e het, ?_⟩
    have := List.mem_takeWhile_imp he
    simp only [decide_eq_true_eq] at this
    exact not_lt_of_ge this
  · intro e he
    have het : e ∈ u := dropWhile_subset_self _ u e he
    refine ⟨hused e het, ?_⟩
    match hu2e : u.dropWhile (fun e => decide (e.1 ≤ pkey)) with
    | [] => rw [hu2e] at he; cases he
    | h2 :: t2 =>
        have hh2 : (fun e : LeafSlot => decide (e.1 ≤ pkey)) h2 = false :=
          dropWhile_head_false _ u h2 t2 hu2e
        have hh2lt : pkey < h2.1 := by
          simp only [decide_eq_false_iff_not, not_le] at hh2
          exact hh2
        rw [hu2e] at he
        rcases List.mem_cons.mp he with rfl | he2
        · exact hh2lt
        · have hpw : ((u.takeWhile (fun e => decide (e.1 ≤ pkey)) ++
              u.dropWhile (fun e => decide (e.1 ≤ pkey))).map Prod.fst).Pairwise (· ≤ ·) := by
            rw [List.takeWhile_append_dropWhile]
            exact hsorted
          rw [List.map_append] at hpw
          have hpw2 := (List.pairwise_append.mp hpw).2.1
          rw [hu2e, List.map_cons] at hpw2
          have hle2 : h2.1 ≤ e.1 :=
            List.rel_of_pairwise_cons hpw2 (List.mem_map_of_mem Prod.fst he2)
          exact lt_of_lt_of_le hh2lt hle2

/-- The `insert_leaf` loop keeps a leaf slot list well formed and preserves
its length, given a valid record id and at least one unused slot. -/
theorem insert_leaf_go_WF (pair : LeafSlot) (es : List LeafSlot)
    (h : LeafSlotsWF es) (hrid : pair.2.slot_number ≠ 0)
    (hfree : ∃ e ∈ es, e.2.slot_number = 0) :
    LeafSlotsWF (insert_leaf_go pair.1 pair es) ∧
      (insert_leaf_go pair.1 pair es).length = es.length := by
  obtain ⟨u, fz, hes, hu, hfz, hsorted⟩ := h
  obtain ⟨hu1, hu2⟩ := sorted_split_by_key pair.1 u hu hsorted
  have hfne : fz ≠ [] := by
    intro hfe
    obtain ⟨e, he, hz⟩ := hfree
    rw [hes, hfe, List.append_nil] at he
    exact hu e he hz
  obtain ⟨fh, ft, hfht⟩ := List.exists_cons_of_ne_nil hfne
  have hfh : fh.2.slot_number = 0 := hfz fh (by rw [hfht]; exact List.mem_cons_self _ _)
  have hft : ∀ e ∈ ft, e.2.slot_number = 0 := fun e he =>
    hfz e (by rw [hfht]; exact List.mem_cons_of_mem _ he)
  have husplit : u = u.takeWhile (fun e => decide (e.1 ≤ pair.1)) ++
      u.dropWhile (fun e => decide (e.1 ≤ pair.1)) :=
    (List.takeWhile_append_dropWhile _ _).symm
  have hes2 : es = u.takeWhile (fun e => decide (e.1 ≤ pair.1)) ++
      ((u.dropWhile (fun e => decide (e.1 ≤ pair.1))) ++ (fh :: ft)) := by
    rw [hes, hfht]
    conv_lhs => rw [husplit]
    rw [List.append_assoc]
  have heq : insert_leaf_go pair.1 pair es =
      u.takeWhile (fun e => decide (e.1 ≤ pair.1)) ++
        ((pair.1, pair.2) :: (u.dropWhile (fun e => decide (e.1 ≤ pair.1)) ++ ft)) := by
    rw [hes2]
    exact insert_leaf_go_split pair.1 pair.2 _ _ fh ft hu1 hu2 hfh
  constructor
  · refine ⟨u.takeWhile (fun e => decide (e.1 ≤ pair.1)) ++
      ((pair.1, pair.2) :: u.dropWhile (fun e => decide (e.1 ≤ pair.1))), ft, ?_, ?_, hft, ?_⟩
    · rw [heq]
      simp [List.append_assoc]
    · intro e he
      rcases List.mem_append.mp he with h1 | h2
      · exact (hu1 e h1).1
      · rcases List.mem_cons.mp h2 with rfl | h3
        · exact hrid
        · exact (hu2 e h3).1
    · have hdw : List.Sublist (u.dropWhile (fun e => decide (e.1 ≤ pair.1))) u := by
        conv_rhs => rw [husplit]
        exact List.sublist_append_right _ _
      have htw : List.Sublist (u.takeWhile (fun e => decide (e.1 ≤ pair.1))) u :=
        (List.takeWhile_prefix _).sublist
      rw [List.map_append, List.map_cons]
      rw [List.pairwise_append]
      refine ⟨hsorted.sublist (htw.map Prod.fst), ?_, ?_⟩
      · rw [List.pairwise_cons]
        refine ⟨?_, hsorted.sublist (hdw.map Prod.fst)⟩
        intro b hb
        obtain ⟨e, he, rfl⟩ := List.mem_map.mp hb
        exact le_of_lt (hu2 e he).2
      · intro a ha b hb
        obtain ⟨e, he, rfl⟩ := List.mem_map.mp ha
        have hea : e.1 ≤ pair.1 := not_lt.mp (hu1 e he).2
        rcases List.mem_cons.mp hb with rfl | hb2
        · exact hea
        · obtain ⟨e2, he2, rfl⟩ := List.mem_map.mp hb2
          exact le_trans hea (le_of_lt (hu2 e2 he2).2)
  · rw [heq]
    conv_rhs => rw [hes2]
    simp [List.length_append]
    omega

/-- `insert_leaf` keeps a leaf well formed when a slot is free. -/
theorem insert_leaf_WF (pair : LeafSlot) (l : LeafNodeInt) (hWF : LeafWF l)
    (hrid : pair.2.slot_number ≠ 0) (hfree : ∃ e ∈ l.entries, e.2.slot_number = 0) :
    LeafWF (insert_leaf pair l) := by
  obtain ⟨hlen, hslots⟩ := hWF
  obtain ⟨hWF2, hlen2⟩ := insert_leaf_go_WF pair l.entries hslots hrid hfree
  constructor
  · simpa [insert_leaf, hlen2] using hlen
  · simpa [insert_leaf] using hWF2

theorem LeafSlotsWF_take_pad (es : List LeafSlot) (n k : Nat) (h : LeafSlotsWF es) :
    LeafSlotsWF (es.take n ++ List.replicate k zeroLeafSlot) := by
  obtain ⟨u, fz, hes, hu, hfz, hsorted⟩ := h
  refine ⟨u.take n, fz.take (n - u.length) ++ List.replicate k zeroLeafSlot, ?_, ?_, ?_, ?_⟩
  · rw [hes, List.take_append_eq_append_take, List.append_assoc]
  · exact fun e he => hu e (List.mem_of_mem_take he)
  · intro e he
    rcases List.mem_append.mp he with h1 | h2
    · exact hfz e (List.mem_of_mem_take h1)
    · rw [List.eq_of_mem_replicate h2]; rfl
  · exact hsorted.sublist ((List.take_sublist _ _).map Prod.fst)

theorem LeafSlotsWF_drop_take_pad (es : List LeafSlot) (m n k : Nat) (h : LeafSlotsWF es) :
    LeafSlotsWF ((es.drop m).take n ++ List.replicate k zeroLeafSlot) := by
  obtain ⟨u, fz, hes, hu, hfz, hsorted⟩ := h
  have hdrop : es.drop m = u.drop m ++ fz.drop (m - u.length) := by
    rw [hes, List.drop_append_eq_append_drop]
  refine ⟨(u.drop m).take n,
    (fz.drop (m - u.length)).take (n - (u.drop m).length) ++ List.replicate k zeroLeafSlot,
    ?_, ?_, ?_, ?_⟩
  · rw [hdrop, List.take_append_eq_append_take, List.append_assoc]
  · exact fun e he => hu e (List.mem_of_mem_drop (List.mem_of_mem_take he))
  · intro e he
    rcases List.mem_append.mp he with h1 | h2
    · exact hfz e (List.mem_of_mem_drop (List.mem_of_mem_take h1))
    · rw [List.eq_of_mem_replicate h2]; rfl
  · exact hsorted.sublist (((List.take_sublist _ _).trans (List.drop_sublist _ _)).map Prod.fst)

theorem leavesWF_write_leaf (st : BTState) (p : Nat) (l : LeafNodeInt)
    (hWF : leavesWF st) (hl : LeafWF l) : leavesWF (st.write p (Node.leaf l)) := by
  intro q l2 hq
  simp only [BTState.write] at hq
  by_cases hpq : q = p
  · rw [if_pos hpq] at hq
    simp only [Option.some.injEq, Node.leaf.injEq] at hq
    subst hq
    exact hl
  · rw [if_neg hpq] at hq
    exact hWF q l2 hq

theorem leavesWF_write_nonleaf (st : BTState) (p : Nat) (n : NonLeafNodeInt)
    (hWF : leavesWF st) : leavesWF (st.write p (Node.nonleaf n)) := by
  intro q l hq
  simp only [BTState.write] at hq
  by_cases hpq : q = p
  · rw [if_pos hpq] at hq
    simp at hq
  · rw [if_neg hpq] at hq
    exact hWF q l hq

/-- Both leaf pages written by `split_leaf` are well formed, so the whole
split preserves the leaves invariant. -/
theorem split_leaf_leavesWF (st : BTState) (l : LeafNodeInt) (currNum : Nat) (pair : LeafSlot)
    (hWF : leavesWF st) (hl : LeafWF l) (hrid : pair.2.slot_number ≠ 0) :
    leavesWF (split_leaf st l currNum pair).1 := by
  obtain ⟨hlen, hslots⟩ := hl
  have hfree : ∀ (xs : List LeafSlot) (sib : Nat),
      ∃ e ∈ (LeafNodeInt.mk (xs ++ List.replicate (INTARRAYLEAFSIZE - INTARRAYLEAFSIZE / 2)
        zeroLeafSlot) sib).entries, e.2.slot_number = 0 := by
    intro xs sib
    refine ⟨zeroLeafSlot, List.mem_append_right _ ?_, rfl⟩
    exact List.mem_replicate.mpr ⟨by decide, rfl⟩
  have hwfL : ∀ sib : Nat, LeafWF
      { entries := l.entries.take (INTARRAYLEAFSIZE / 2) ++
          List.replicate (INTARRAYLEAFSIZE - INTARRAYLEAFSIZE / 2) zeroLeafSlot
        rightSibPageNo := sib } := by
    intro sib
    constructor
    · simp only [List.length_append, List.length_take, List.length_replicate, hlen]
      decide
    · exact LeafSlotsWF_take_pad _ _ _ hslots
  have hwfR : ∀ sib : Nat, LeafWF
      { entries := (l.entries.drop (INTARRAYLEAFSIZE / 2)).take (INTARRAYLEAFSIZE / 2) ++
          List.replicate (INTARRAYLEAFSIZE - INTARRAYLEAFSIZE / 2) zeroLeafSlot
        rightSibPageNo := sib } := by
    intro sib
    constructor
    · simp only [List.length_append, List.length_take, List.length_replicate,
        List.length_drop, hlen]
      decide
    · exact LeafSlotsWF_drop_take_pad _ _ _ _ hslots
  have hwfL2 : ∀ sib : Nat, LeafWF (if pair.1 <
      ((((l.entries.drop (INTARRAYLEAFSIZE / 2)).take (INTARRAYLEAFSIZE / 2) ++
        List.replicate (INTARRAYLEAFSIZE - INTARRAYLEAFSIZE / 2) zeroLeafSlot).getD 0
          zeroLeafSlot).1) then
      insert_leaf pair
        { entries := l.entries.take (INTARRAYLEAFSIZE / 2) ++
            List.replicate (INTARRAYLEAFSIZE - INTARRAYLEAFSIZE / 2) zeroLeafSlot
          rightSibPageNo := sib }
      else
      { entries := l.entries.take (INTARRAYLEAFSIZE / 2) ++
          List.replicate (INTARRAYLEAFSIZE - INTARRAYLEAFSIZE / 2) zeroLeafSlot
        rightSibPageNo := sib }) := by
    intro sib
    split
    · exact insert_leaf_WF pair _ (hwfL sib) hrid (hfree _ sib)
    · exact hwfL sib
  have hwfR2 : ∀ sib : Nat, LeafWF (if pair.1 <
      ((((l.entries.drop (INTARRAYLEAFSIZE / 2)).take (INTARRAYLEAFSIZE / 2) ++
        List.replicate (INTARRAYLEAFSIZE - INTARRAYLEAFSIZE / 2) zeroLeafSlot).getD 0
          zeroLeafSlot).1) then
      { entries := (l.entries.drop (INTARRAYLEAFSIZE / 2)).take (INTARRAYLEAFSIZE / 2) ++
          List.replicate (INTARRAYLEAFSIZE - INTARRAYLEAFSIZE / 2) zeroLeafSlot
        rightSibPageNo := sib }
      else
      insert_leaf pair
        { entries := (l.entries.drop (INTARRAYLEAFSIZE / 2)).take (INTARRAYLEAFSIZE / 2) ++
            List.replicate (INTARRAYLEAFSIZE - INTARRAYLEAFSIZE / 2) zeroLeafSlot
          rightSibPageNo := sib }) := by
    intro sib
    split
    · exact hwfR sib
    · exact insert_leaf_WF pair _ (hwfR sib) hrid (hfree _ sib)
  unfold split_leaf
  by_cases hroot : currNum = st.rootPageNum
  · simp only [hroot, if_true, reduceIte]
    exact leavesWF_write_nonleaf _ _ _
      (leavesWF_write_leaf _ _ _ (leavesWF_write_leaf _ _ _ hWF (hwfL2 _)) (hwfR2 _))
  · simp only [hroot, if_false, reduceIte]
    exact leavesWF_write_leaf _ _ _ (leavesWF_write_leaf _ _ _ hWF (hwfL2 _)) (hwfR2 _)

/-- `split_nonleaf` writes only non-leaf pages, so it preserves the leaves
invariant outright. -/
theorem split_nonleaf_leavesWF (st : BTState) (p : Nat) (n : NonLeafNodeInt)
    (pp : PageKeyPair) (hWF : leavesWF st) : leavesWF (split_nonleaf st p n pp).1 := by
  unfold split_nonleaf
  by_cases hroot : p = st.rootPageNum
  · simp only [hroot, if_true, reduceIte]
    exact leavesWF_write_nonleaf _ _ _
      (leavesWF_write_nonleaf _ _ _ (leavesWF_write_nonleaf _ _ _ hWF))
  · simp only [hroot, if_false, reduceIte]
    exact leavesWF_write_nonleaf _ _ _ (leavesWF_write_nonleaf _ _ _ hWF)

/-- The recursive insert preserves the leaves invariant, for any fuel. -/
theorem insertRec_leavesWF (fuel : Nat) :
    ∀ (st : BTState) (pair : LeafSlot) (currNum : Nat) (isLeaf : Int),
      leavesWF st → pair.2.slot_number ≠ 0 →
      leavesWF (insertRec fuel st pair currNum isLeaf).1 := by
  induction fuel with
  | zero =>
      intro st pair currNum isLeaf hWF _
      simpa [insertRec] using hWF
  | succ m ih =>
      intro st pair currNum isLeaf hWF hrid
      rw [insertRec]
      by_cases hL : isLeaf = 0
      · rw [if_pos hL]
        cases hsel : selectChildInsert (asNonLeaf (st.store currNum)).keyArray
            (asNonLeaf (st.store currNum)).pageNoArray pair.1 with
        | none => simpa [hsel] using hWF
        | some childPg =>
            simp only [hsel]
            have hchild := ih st pair childPg (asNonLeaf (st.store currNum)).level hWF hrid
            cases hr2 : (insertRec m st pair childPg (asNonLeaf (st.store currNum)).level).2 with
            | none => simpa [hr2] using hchild
            | some pp =>
                simp only [hr2]
                by_cases hspace : (asNonLeaf ((insertRec m st pair childPg
                    (asNonLeaf (st.store currNum)).level).1.store currNum)).pageNoArray.getD
                    INTARRAYNONLEAFSIZE 0 = 0
                · simp only [hspace, if_true, reduceIte]
                  exact leavesWF_write_nonleaf _ _ _ hchild
                · simp only [hspace, if_false, reduceIte]
                  exact split_nonleaf_leavesWF _ _ _ _ hchild
      · rw [if_neg hL]
        have hlWF := LeafWF_asLeaf st currNum hWF
        by_cases hguard : ((asLeaf (st.store currNum)).entries.getD (INTARRAYLEAFSIZE - 1)
            zeroLeafSlot).2.slot_number = 0
        · simp only [hguard, if_true, reduceIte]
          have hfree : ∃ e ∈ (asLeaf (st.store currNum)).entries, e.2.slot_number = 0 := by
            have hlt : INTARRAYLEAFSIZE - 1 < (asLeaf (st.store currNum)).entries.length := by
              rw [hlWF.1]; decide
            refine ⟨(asLeaf (st.store currNum)).entries.getD (INTARRAYLEAFSIZE - 1)
              zeroLeafSlot, ?_, hguard⟩
            rw [List.getD_eq_getElem?_getD, List.getElem?_eq_getElem hlt]
            exact List.getElem_mem hlt
          exact leavesWF_write_leaf _ _ _ hWF (insert_leaf_WF pair _ hlWF hrid hfree)
        · simp only [hguard, if_false, reduceIte]
          exact split_leaf_leavesWF st _ currNum pair hWF hlWF hrid

/-- The occupied prefix of a well-formed leaf has non-decreasing adjacent
keys, and everything after the first unused slot is unused. -/
theorem LeafWF_occupied_chain (l : LeafNodeInt) (h : LeafWF l) :
    List.Chain' (· ≤ ·) (occupiedKeys l) ∧
      ∀ e ∈ l.entries.dropWhile (fun e => e.2.slot_number != 0), e.2.slot_number = 0 := by
  obtain ⟨hlen, u, fz, hes, hu, hfz, hsorted⟩ := h
  have hup : ∀ a ∈ u, (fun e : LeafSlot => e.2.slot_number != 0) a = true := by
    intro a ha
    simpa using hu a ha
  have hfp : ∀ a ∈ fz, (fun e : LeafSlot => e.2.slot_number != 0) a = false := by
    intro a ha
    simpa using hfz a ha
  constructor
  · unfold occupiedKeys
    rw [hes, takeWhile_append_all _ _ _ hup, takeWhile_nil_of_false _ _ hfp, List.append_nil]
    exact List.chain'_iff_pairwise.mpr hsorted
  · intro e he
    rw [hes, dropWhile_append_all _ _ _ hup] at he
    exact hfz e (dropWhile_subset_self _ _ e he)

/-- The constructor's first state keeps every leaf well formed. -/
theorem leavesWF_initialState (key : Int) (rid : RecordId) (hrid : rid.slot_number ≠ 0) :
    leavesWF (initialState key rid) := by
  intro p l hl
  simp only [initialState] at hl
  by_cases hp : p = 2
  · rw [if_pos hp] at hl
    simp only [Option.some.injEq, Node.leaf.injEq] at hl
    subst hl
    refine ⟨by simp [INTARRAYLEAFSIZE], [(key, rid)],
      List.replicate (INTARRAYLEAFSIZE - 1) zeroLeafSlot, rfl, ?_, ?_, ?_⟩
    · intro e he
      rw [List.mem_singleton.mp he]
      exact hrid
    · intro e he
      rw [List.eq_of_mem_replicate he]
      rfl
    · simp
  · rw [if_neg hp] at hl
    cases hl

/-- **C4.** `insertEntry` preserves the sorted-leaves invariant: starting
from a state whose leaf pages are all well formed (occupied contiguous
prefix with non-decreasing keys, full-capacity slot array), after any
`insertEntry` every leaf page of the tree still has non-decreasing keys on
adjacent occupied slots (occupied meaning before the first slot whose record
id has `slot_number == 0`) — both when the insert fits in a leaf and when it
splits one. -/
theorem insertEntry_preserves_sorted_leaves (st : BTState) (fuel : Nat) (key : Int)
    (rid : RecordId) (hrid : rid.slot_number ≠ 0) (hWF : leavesWF st) :
    ∀ p l, (insertEntry st fuel key rid).store p = some (Node.leaf l) →
      List.Chain' (· ≤ ·) (occupiedKeys l) ∧
        ∀ e ∈ l.entries.dropWhile (fun e => e.2.slot_number != 0), e.2.slot_number = 0 := by
  intro p l hl
  have hres : leavesWF (insertEntry st fuel key rid) := by
    unfold insertEntry
    by_cases h2 : st.rootPageNum = 2
    · rw [if_pos h2]
      exact insertRec_leavesWF fuel st (key, rid) st.rootPageNum 1 hWF hrid
    · rw [if_neg h2]
      exact insertRec_leavesWF fuel st (key, rid) st.rootPageNum 0 hWF hrid
  exact LeafWF_occupied_chain l (hres p l hl)

/-- Witness for C4: inserting key 3 into the fresh index holding key 5
produces the leaf with slots `[3, 5, unused…]` on page 2, whose occupied
prefix is sorted and contiguous. -/
theorem insertEntry_preserves_sorted_leaves_witness :
    (insertEntry (initialState 5 ⟨1, 1⟩) 1 3 ⟨1, 2⟩).store 2 =
      some (Node.leaf sortedDemoLeaf) ∧
    (List.Chain' (· ≤ ·) (occupiedKeys sortedDemoLeaf) ∧
      ∀ e ∈ sortedDemoLeaf.entries.dropWhile (fun e => e.2.slot_number != 0),
        e.2.slot_number = 0) := by
  have hstore : (insertEntry (initialState 5 ⟨1, 1⟩) 1 3 ⟨1, 2⟩).store 2 =
      some (Node.leaf sortedDemoLeaf) := by decide
  exact ⟨hstore, insertEntry_preserves_sorted_leaves (initialState 5 ⟨1, 1⟩) 1 3 ⟨1, 2⟩
    (by decide) (leavesWF_initialState 5 ⟨1, 1⟩ (by decide)) 2 sortedDemoLeaf hstore⟩

/-! ## Helper lemmas for the root-identity invariant (claim C9)

The invariant `RootInv` is preserved by tracking every page number an insert
can write into an internal node: child selection only returns page numbers
already stored in the node, `insert_nonleaf` only adds the page numbers of
the two pairs handed to it, and a split only redistributes existing page
numbers (plus zeroes) between the two halves. -/

theorem selectChildInsertGo_mem (k : Int) :
    ∀ (keys : List Int) (pages : List Nat) (q : Nat),
      selectChildInsertGo k keys pages = some q → q ∈ pages := by
  intro keys
  induction keys with
  | nil =>
      intro pages q h
      simp [selectChildInsertGo] at h
  | cons k0 ks ih =>
      intro pages q h
      cases ks with
      | nil =>
          cases pages with
          | nil => simp [selectChildInsertGo] at h
          | cons p0 rest =>
              cases rest with
              | nil => simp [selectChildInsertGo] at h
              | cons p1 ps =>
                  simp only [selectChildInsertGo] at h
                  split at h
                  · injection h with h
                    exact h ▸ List.mem_cons_of_mem _ (List.mem_cons_self _ _)
                  · simp at h
      | cons k1 ks2 =>
          cases pages with
          | nil => simp [selectChildInsertGo] at h
          | cons p0 rest =>
              cases rest with
              | nil => simp [selectChildInsertGo] at h
              | cons p1 ps =>
                  simp only [selectChildInsertGo] at h
                  split at h
                  · injection h with h
                    exact h ▸ List.mem_cons_of_mem _ (List.mem_cons_self _ _)
                  · split at h
                    · injection h with h
                      exact h ▸ List.mem_cons_of_mem _ (List.mem_cons_self _ _)
                    · exact List.mem_cons_of_mem _ (ih (p1 :: ps) q h)

theorem selectChildInsert_mem (keys : List Int) (pages : List Nat) (k : Int) (q : Nat)
    (h : selectChildInsert keys pages k = some q) : q ∈ pages := by
  cases keys with
  | nil => cases pages <;> simp [selectChildInsert] at h
  | cons k0 ks =>
      cases pages with
      | nil => simp [selectChildInsert] at h
      | cons p0 ps =>
          simp only [selectChildInsert] at h
          split at h
          · injection h with h
            exact h ▸ List.mem_cons_self _ _
          · exact selectChildInsertGo_mem k (k0 :: ks) (p0 :: ps) q h

theorem insert_nonleaf_go_ptrs (k : Int) :
    ∀ (es : List NonLeafSlot) (c : NonLeafSlot) (q : Nat),
      q ∈ (insert_nonleaf_go k c es).map Prod.snd →
      q ∈ es.map Prod.snd ∨ q = c.2 := by
  intro es
  induction es with
  | nil =>
      intro c q h
      simp [insert_nonleaf_go] at h
  | cons e es2 ih =>
      intro c q h
      simp only [insert_nonleaf_go] at h
      by_cases h0 : e.2 = 0
      · rw [if_pos h0] at h
        simp only [List.map_cons, List.mem_cons] at h
        rcases h with rfl | h2
        · right; rfl
        · left
          simp only [List.map_cons, List.mem_cons]
          right; exact h2
      · rw [if_neg h0] at h
        by_cases hgt : e.1 > k
        · rw [if_pos hgt] at h
          simp only [List.map_cons, List.mem_cons] at h
          rcases h with rfl | h2
          · right; rfl
          · rcases ih e q h2 with h3 | h3
            · left
              simp only [List.map_cons, List.mem_cons]
              right; exact h3
            · left
              simp only [List.map_cons, List.mem_cons]
              left; exact h3
        · rw [if_neg hgt] at h
          simp only [List.map_cons, List.mem_cons] at h
          rcases h with rfl | h2
          · left
            simp [List.map_cons, List.mem_cons]
          · rcases ih c q h2 with h3 | h3
            · left
              simp only [List.map_cons, List.mem_cons]
              right; exact h3
            · right; exact h3

theorem insert_nonleaf_ptrs (p1 p2 : PageKeyPair) (n : NonLeafNodeInt) (q : Nat)
    (h : q ∈ (insert_nonleaf p1 p2 n).pageNoArray) :
    q ∈ n.pageNoArray ∨ q = p1.pageNo ∨ q = p2.pageNo := by
  unfold insert_nonleaf at h
  by_cases h0 : n.page0 = 0
  · rw [if_pos h0] at h
    cases hes : n.entries with
    | nil =>
        simp only [NonLeafNodeInt.pageNoArray, hes, List.map_nil, List.mem_cons,
          List.not_mem_nil, or_false] at h
        right; left; exact h
    | cons e0 rest =>
        simp only [NonLeafNodeInt.pageNoArray, hes, List.map_cons, List.mem_cons] at h
        rcases h with rfl | rfl | h2
        · right; left; rfl
        · right; right; rfl
        · left
          simp only [NonLeafNodeInt.pageNoArray, hes, List.map_cons, List.mem_cons]
          right; right; exact h2
  · rw [if_neg h0] at h
    simp only [NonLeafNodeInt.pageNoArray, List.mem_cons] at h
    rcases h with rfl | h2
    · left; exact List.mem_cons_self _ _
    · rcases insert_nonleaf_go_ptrs p2.key n.entries (p2.key, p2.pageNo) q h2 with h3 | h3
      · left
        simp only [NonLeafNodeInt.pageNoArray, List.mem_cons]
        right; exact h3
      · right; right; exact h3

theorem insert_nonleaf_level (p1 p2 : PageKeyPair) (n : NonLeafNodeInt) :
    (insert_nonleaf p1 p2 n).level = n.level := by
  unfold insert_nonleaf
  split <;> rfl

theorem zeroNonLeaf_ptrs (q : Nat) (h : q ∈ zeroNonLeaf.pageNoArray) : q = 0 := by
  simp only [zeroNonLeaf, NonLeafNodeInt.pageNoArray, List.mem_cons] at h
  rcases h with rfl | h2
  · rfl
  · rw [List.map_replicate] at h2
    exact (List.mem_replicate.mp h2).2

theorem getD_snd_mem_or (es : List NonLeafSlot) (i : Nat) :
    (es.getD i zeroNonLeafSlot).2 ∈ es.map Prod.snd ∨
      (es.getD i zeroNonLeafSlot).2 = 0 := by
  by_cases hlt : i < es.length
  · left
    rw [List.getD_eq_getElem?_getD, List.getElem?_eq_getElem hlt]
    exact List.mem_map_of_mem Prod.snd (List.getElem_mem hlt)
  · right
    rw [List.getD_eq_default _ _ (Nat.le_of_not_lt hlt)]
    rfl

theorem RootInv_bump (st : BTState) (hInv : RootInv st) :
    RootInv { st with nextAlloc := st.nextAlloc + 1 } := by
  obtain ⟨h2l, hroot, ha2, hrlt, hptr, hnone⟩ := hInv
  refine ⟨h2l, hroot, ?_, ?_, ?_, ?_⟩
  · show 2 < st.nextAlloc + 1
    omega
  · show st.rootPageNum < st.nextAlloc + 1
    omega
  · intro p n hp q hq
    obtain ⟨h1, h2, h3⟩ := hptr p n hp q hq
    refine ⟨?_, h2, h3⟩
    show q < st.nextAlloc + 1
    omega
  · intro p hge
    have hge2 : st.nextAlloc + 1 ≤ p := hge
    exact hnone p (by omega)

theorem RootInv_write_leaf (st : BTState) (p : Nat) (l : LeafNodeInt)
    (hInv : RootInv st) (hp : p < st.nextAlloc)
    (hpr : st.rootPageNum ≠ 2 → p ≠ st.rootPageNum) :
    RootInv (st.write p (Node.leaf l)) := by
  obtain ⟨⟨l2, h2l⟩, hroot, ha2, hrlt, hptr, hnone⟩ := hInv
  refine ⟨?_, ?_, ha2, hrlt, ?_, ?_⟩
  · by_cases h2p : 2 = p
    · exact ⟨l, by simp [BTState.write, h2p]⟩
    · refine ⟨l2, ?_⟩
      simp only [BTState.write]
      rw [if_neg h2p]
      exact h2l
  · rcases hroot with h | ⟨hgt, n2, hn2⟩
    · exact Or.inl h
    · right
      refine ⟨hgt, n2, ?_⟩
      simp only [BTState.write]
      rw [if_neg ?_]
      · exact hn2
      · exact fun hc => (hpr (by omega) hc.symm).elim
  · intro p2 n2 hp2 q hq
    simp only [BTState.write] at hp2
    by_cases hpp : p2 = p
    · rw [if_pos hpp] at hp2
      exact absurd hp2 (by simp)
    · rw [if_neg hpp] at hp2
      exact hptr p2 n2 hp2 q hq
  · intro p2 hge
    have hge2 : st.nextAlloc ≤ p2 := hge
    simp only [BTState.write]
    rw [if_neg ?_]
    · exact hnone p2 hge2
    · omega

theorem RootInv_write_nonleaf (st : BTState) (p : Nat) (n : NonLeafNodeInt)
    (hInv : RootInv st) (hp : p < st.nextAlloc) (hp2 : p ≠ 2)
    (hptrs : ∀ q ∈ n.pageNoArray,
      q < st.nextAlloc ∧ q ≠ st.rootPageNum ∧ (q = 2 → n.level = 1)) :
    RootInv (st.write p (Node.nonleaf n)) := by
  obtain ⟨⟨l2, h2l⟩, hroot, ha2, hrlt, hptr, hnone⟩ := hInv
  refine ⟨?_, ?_, ha2, hrlt, ?_, ?_⟩
  · refine ⟨l2, ?_⟩
    simp only [BTState.write]
    rw [if_neg ?_]
    · exact h2l
    · omega
  · rcases hroot with h | ⟨hgt, n2, hn2⟩
    · exact Or.inl h
    · right
      refine ⟨hgt, ?_⟩
      by_cases hpr : st.rootPageNum = p
      · exact ⟨n, by simp [BTState.write, hpr]⟩
      · refine ⟨n2, ?_⟩
        simp only [BTState.write]
        rw [if_neg hpr]
        exact hn2
  · intro p2 n2 hp2n q hq
    simp only [BTState.write] at hp2n
    by_cases hpp : p2 = p
    · rw [if_pos hpp] at hp2n
      injection hp2n with hp2n
      injection hp2n with hp2n
      subst hp2n
      exact hptrs q hq
    · rw [if_neg hpp] at hp2n
      exact hptr p2 n2 hp2n q hq
  · intro p2 hge
    have hge2 : st.nextAlloc ≤ p2 := hge
    simp only [BTState.write]
    rw [if_neg ?_]
    · exact hnone p2 hge2
    · omega

theorem RootInv_newRoot (st : BTState) (R : Nat) (n : NonLeafNodeInt)
    (hInv : RootInv st) (hR : R = st.nextAlloc)
    (hptrs : ∀ q ∈ n.pageNoArray, q < st.nextAlloc ∧ (q = 2 → n.level = 1)) :
    RootInv (changeRootNum
      ({ st with nextAlloc := st.nextAlloc + 1 }.write R (Node.nonleaf n)) R) := by
  obtain ⟨⟨l2, h2l⟩, hroot, ha2, hrlt, hptr, hnone⟩ := hInv
  refine ⟨?_, ?_, ?_, ?_, ?_, ?_⟩
  · refine ⟨l2, ?_⟩
    show (if 2 = R then some (Node.nonleaf n) else st.store 2) = some (Node.leaf l2)
    rw [if_neg ?_]
    · exact h2l
    · omega
  · right
    refine ⟨?_, n, ?_⟩
    · show 2 < R
      omega
    · show (if R = R then some (Node.nonleaf n) else st.store R) = some (Node.nonleaf n)
      rw [if_pos rfl]
  · show 2 < st.nextAlloc + 1
    omega
  · show R < st.nextAlloc + 1
    omega
  · intro p2 n2 hp2n q hq
    have hp2n2 : (if p2 = R then some (Node.nonleaf n) else st.store p2) =
        some (Node.nonleaf n2) := hp2n
    by_cases hpp : p2 = R
    · rw [if_pos hpp] at hp2n2
      injection hp2n2 with hp2n2
      injection hp2n2 with hp2n2
      subst hp2n2
      obtain ⟨hq1, hq2⟩ := hptrs q hq
      refine ⟨?_, ?_, hq2⟩
      · show q < st.nextAlloc + 1
        omega
      · show q ≠ R
        omega
    · rw [if_neg hpp] at hp2n2
      obtain ⟨hq1, hq2, hq3⟩ := hptr p2 n2 hp2n2 q hq
      refine ⟨?_, ?_, hq3⟩
      · show q < st.nextAlloc + 1
        omega
      · show q ≠ R
        omega
  · intro p2 hge
    have hge2 : st.nextAlloc + 1 ≤ p2 := hge
    show (if p2 = R then some (Node.nonleaf n) else st.store p2) = none
    rw [if_neg ?_]
    · exact hnone p2 (by omega)
    · omega

theorem RootInv_initialState (key : Int) (rid : RecordId) :
    RootInv (initialState key rid) := by
  refine ⟨⟨{ entries := (key, rid) :: List.replicate (INTARRAYLEAFSIZE - 1) zeroLeafSlot, rightSibPageNo := 0 }, by simp [initialState]⟩, Or.inl rfl, by simp [initialState],
    by simp [initialState], ?_, ?_⟩
  · intro p n hp q hq
    simp only [initialState] at hp
    by_cases hp2 : p = 2
    · rw [if_pos hp2] at hp
      exact absurd hp (by simp)
    · rw [if_neg hp2] at hp
      exact absurd hp (by simp)
  · intro p hge
    simp only [initialState] at hge ⊢
    rw [if_neg ?_]
    · omega

theorem child_ptr_ok (st : BTState) (currNum : Nat) (hInv : RootInv st) :
    ∀ q ∈ (asNonLeaf (st.store currNum)).pageNoArray,
      q < st.nextAlloc ∧ q ≠ st.rootPageNum ∧
        (q = 2 → (asNonLeaf (st.store currNum)).level = 1) := by
  obtain ⟨_, hroot, ha2, hrlt, hptr, _⟩ := hInv
  have hzero : ∀ q ∈ zeroNonLeaf.pageNoArray,
      q < st.nextAlloc ∧ q ≠ st.rootPageNum ∧ (q = 2 → zeroNonLeaf.level = 1) := by
    intro q hq
    rw [zeroNonLeaf_ptrs q hq]
    refine ⟨by omega, ?_, by omega⟩
    rcases hroot with h | ⟨hgt, _⟩ <;> omega
  cases hs : st.store currNum with
  | none =>
      intro q hq
      exact hzero q hq
  | some nd =>
      cases nd with
      | leaf l =>
          intro q hq
          exact hzero q hq
      | nonleaf n =>
          intro q hq
          exact hptr currNum n hs q hq

theorem mem_map_snd_take_pad (es : List NonLeafSlot) (a b : Nat) (q : Nat)
    (h : q ∈ (es.take a ++ List.replicate b zeroNonLeafSlot).map Prod.snd) :
    q ∈ es.map Prod.snd ∨ q = 0 := by
  rw [List.map_append, List.mem_append] at h
  rcases h with h | h
  · left
    rw [List.map_take] at h
    exact List.take_subset _ _ h
  · right
    rw [List.map_replicate] at h
    exact (List.mem_replicate.mp h).2

theorem mem_map_snd_drop_pad (es : List NonLeafSlot) (a b : Nat) (q : Nat)
    (h : q ∈ (es.drop a ++ List.replicate b zeroNonLeafSlot).map Prod.snd) :
    q ∈ es.map Prod.snd ∨ q = 0 := by
  rw [List.map_append, List.mem_append] at h
  rcases h with h | h
  · left
    rw [List.map_drop] at h
    exact List.drop_subset _ _ h
  · right
    rw [List.map_replicate] at h
    exact (List.mem_replicate.mp h).2

theorem node_ptrs_take (n : NonLeafNodeInt) (a b : Nat) (q : Nat)
    (h : q ∈ (NonLeafNodeInt.mk n.level n.page0
      (n.entries.take a ++ List.replicate b zeroNonLeafSlot)).pageNoArray) :
    q ∈ n.pageNoArray ∨ q = 0 := by
  simp only [NonLeafNodeInt.pageNoArray, List.mem_cons] at h ⊢
  rcases h with rfl | h
  · left; left; rfl
  · rcases mem_map_snd_take_pad n.entries a b q h with h2 | h2
    · left; right; exact h2
    · right; exact h2

theorem node_ptrs_sib (n : NonLeafNodeInt) (lv : Int) (a b i : Nat) (q : Nat)
    (h : q ∈ (NonLeafNodeInt.mk lv (n.entries.getD i zeroNonLeafSlot).2
      (n.entries.drop a ++ List.replicate b zeroNonLeafSlot)).pageNoArray) :
    q ∈ n.pageNoArray ∨ q = 0 := by
  simp only [NonLeafNodeInt.pageNoArray, List.mem_cons] at h ⊢
  rcases h with rfl | h
  · rcases getD_snd_mem_or n.entries i with h2 | h2
    · left; right; exact h2
    · right; exact h2
  · rcases mem_map_snd_drop_pad n.entries a b q h with h2 | h2
    · left; right; exact h2
    · right; exact h2

theorem ite_insert_ptrs (c : Prop) [inst : Decidable c] (pair : PageKeyPair)
    (m : NonLeafNodeInt) (q : Nat)
    (h : q ∈ (if c then insert_nonleaf pair pair m else m).pageNoArray) :
    q ∈ m.pageNoArray ∨ q = pair.pageNo := by
  split at h
  · rcases insert_nonleaf_ptrs pair pair m q h with h2 | h2 | h2
    · left; exact h2
    · right; exact h2
    · right; exact h2
  · left; exact h

theorem ite_insert_ptrs2 (c : Prop) [inst : Decidable c] (pair : PageKeyPair)
    (m : NonLeafNodeInt) (q : Nat)
    (h : q ∈ (if c then m else insert_nonleaf pair pair m).pageNoArray) :
    q ∈ m.pageNoArray ∨ q = pair.pageNo := by
  split at h
  · left; exact h
  · rcases insert_nonleaf_ptrs pair pair m q h with h2 | h2 | h2
    · left; exact h2
    · right; exact h2
    · right; exact h2

theorem ite_insert_level (c : Prop) [inst : Decidable c] (pair : PageKeyPair)
    (m : NonLeafNodeInt) :
    (if c then insert_nonleaf pair pair m else m).level = m.level := by
  split
  · exact insert_nonleaf_level pair pair m
  · rfl

theorem ite_insert_level2 (c : Prop) [inst : Decidable c] (pair : PageKeyPair)
    (m : NonLeafNodeInt) :
    (if c then m else insert_nonleaf pair pair m).level = m.level := by
  split
  · rfl
  · exact insert_nonleaf_level pair pair m

theorem newRoot_ptrs (p1 p2 : PageKeyPair) (lv : Int) (q : Nat)
    (h : q ∈ (insert_nonleaf p1 p2 { zeroNonLeaf with level := lv }).pageNoArray) :
    q = p1.pageNo ∨ q = p2.pageNo ∨ q = 0 := by
  rcases insert_nonleaf_ptrs p1 p2 { zeroNonLeaf with level := lv } q h with h2 | h2 | h2
  · right; right
    exact zeroNonLeaf_ptrs q h2
  · left; exact h2
  · right; left; exact h2

theorem newRoot_level (p1 p2 : PageKeyPair) (lv : Int) :
    (insert_nonleaf p1 p2 { zeroNonLeaf with level := lv }).level = lv := by
  rw [insert_nonleaf_level]

/-- `split_leaf` keeps the root-identity invariant: both halves are leaf
writes below the allocation frontier, and a replaced root is a fresh internal
page above everything (its `level == 1` pointers are the split page and its
new sibling).  The promoted pair, when produced, names the fresh sibling:
strictly between the old and new allocation frontier, never the root, and
greater than 2. -/
theorem split_leaf_RootInv (st : BTState) (l : LeafNodeInt) (currNum : Nat) (pair : LeafSlot)
    (hInv : RootInv st) (hcur : currNum < st.nextAlloc)
    (hcr : currNum = st.rootPageNum → st.rootPageNum = 2) :
    RootInv (split_leaf st l currNum pair).1 ∧
    st.nextAlloc ≤ (split_leaf st l currNum pair).1.nextAlloc ∧
    (currNum ≠ st.rootPageNum →
      (split_leaf st l currNum pair).1.rootPageNum = st.rootPageNum) ∧
    (∀ pp, (split_leaf st l currNum pair).2 = some pp →
      st.nextAlloc ≤ pp.pageNo ∧ pp.pageNo < (split_leaf st l currNum pair).1.nextAlloc ∧
      pp.pageNo ≠ (split_leaf st l currNum pair).1.rootPageNum ∧ 2 < pp.pageNo) := by
  have ha2 : 2 < st.nextAlloc := hInv.2.2.1
  have hrlt : st.rootPageNum < st.nextAlloc := hInv.2.2.2.1
  unfold split_leaf
  by_cases hroot : currNum = st.rootPageNum
  · simp only [hroot, if_true, reduceIte]
    refine ⟨?_, ?_, ?_, ?_⟩
    · apply RootInv_newRoot
      · apply RootInv_write_leaf
        · apply RootInv_write_leaf
          · exact RootInv_bump st hInv
          · show st.rootPageNum < st.nextAlloc + 1
            omega
          · intro hne2 _
            exact hne2 (hcr hroot)
        · show st.nextAlloc < st.nextAlloc + 1
          omega
        · intro hne2 _
          exact hne2 (hcr hroot)
      · rfl
      · intro q hq
        refine ⟨?_, fun _ => newRoot_level _ _ _⟩
        show q < st.nextAlloc + 1
        rcases newRoot_ptrs _ _ _ q hq with h2 | h2 | h2
        · have h3 : q = st.rootPageNum := h2
          omega
        · have h3 : q = st.nextAlloc := h2
          omega
        · have h3 : q = 0 := h2
          omega
    · show st.nextAlloc ≤ st.nextAlloc + 1 + 1
      omega
    · intro hne
      exact absurd rfl hne
    · intro pp hpp
      exact Option.noConfusion hpp
  · simp only [hroot, if_false, reduceIte]
    refine ⟨?_, ?_, ?_, ?_⟩
    · apply RootInv_write_leaf
      · apply RootInv_write_leaf
        · exact RootInv_bump st hInv
        · show currNum < st.nextAlloc + 1
          omega
        · intro _
          exact hroot
      · show st.nextAlloc < st.nextAlloc + 1
        omega
      · intro _
        show st.nextAlloc ≠ st.rootPageNum
        omega
    · show st.nextAlloc ≤ st.nextAlloc + 1
      omega
    · intro _
      rfl
    · intro pp hpp
      injection hpp with hpp
      subst hpp
      refine ⟨?_, ?_, ?_, ?_⟩
      · show st.nextAlloc ≤ st.nextAlloc
        exact Nat.le_refl _
      · show st.nextAlloc < st.nextAlloc + 1
        omega
      · show st.nextAlloc ≠ st.rootPageNum
        omega
      · show 2 < st.nextAlloc
        exact ha2

/-- `split_nonleaf` keeps the root-identity invariant, assuming the split
page's stored pointers satisfy the invariant's pointer conditions and the
incoming promoted pair does as well.  The promoted pair it produces names
the fresh sibling. -/
theorem split_nonleaf_RootInv (st : BTState) (curpagenum : Nat) (n : NonLeafNodeInt)
    (pair : PageKeyPair) (hInv : RootInv st) (hcur : curpagenum < st.nextAlloc)
    (hc2 : curpagenum ≠ 2)
    (hnptr : ∀ q ∈ n.pageNoArray,
      q < st.nextAlloc ∧ q ≠ st.rootPageNum ∧ (q = 2 → n.level = 1))
    (hpp3 : pair.pageNo < st.nextAlloc ∧ pair.pageNo ≠ st.rootPageNum ∧ 2 < pair.pageNo) :
    RootInv (split_nonleaf st curpagenum n pair).1 ∧
    st.nextAlloc ≤ (split_nonleaf st curpagenum n pair).1.nextAlloc ∧
    (curpagenum ≠ st.rootPageNum →
      (split_nonleaf st curpagenum n pair).1.rootPageNum = st.rootPageNum) ∧
    (∀ pp, (split_nonleaf st curpagenum n pair).2 = some pp →
      st.nextAlloc ≤ pp.pageNo ∧
      pp.pageNo < (split_nonleaf st curpagenum n pair).1.nextAlloc ∧
      pp.pageNo ≠ (split_nonleaf st curpagenum n pair).1.rootPageNum ∧ 2 < pp.pageNo) := by
  have ha2 : 2 < st.nextAlloc := hInv.2.2.1
  have hrlt : st.rootPageNum < st.nextAlloc := hInv.2.2.2.1
  have hrge : 2 ≤ st.rootPageNum := by
    rcases hInv.2.1 with h | ⟨hgt, _⟩ <;> omega
  obtain ⟨hpa, hpb, hpc⟩ := hpp3
  unfold split_nonleaf
  by_cases hroot : curpagenum = st.rootPageNum
  · have hc2r : st.rootPageNum ≠ 2 := fun h => hc2 (hroot.trans h)
    simp only [hroot, if_true, reduceIte]
    refine ⟨?_, ?_, ?_, ?_⟩
    · apply RootInv_newRoot
      · apply RootInv_write_nonleaf
        · apply RootInv_write_nonleaf
          · exact RootInv_bump st hInv
          · show st.rootPageNum < st.nextAlloc + 1
            omega
          · exact hc2r
          · intro q hq
            rcases ite_insert_ptrs _ _ _ q hq with h2 | h2
            · rcases node_ptrs_take n _ _ q h2 with h3 | h3
              · obtain ⟨ha, hb, hclev⟩ := hnptr q h3
                refine ⟨?_, ?_, ?_⟩
                · show q < st.nextAlloc + 1
                  omega
                · show q ≠ st.rootPageNum
                  exact hb
                · intro h2q
                  rw [ite_insert_level]
                  show n.level = 1
                  exact hclev h2q
              · refine ⟨?_, ?_, ?_⟩
                · show q < st.nextAlloc + 1
                  omega
                · show q ≠ st.rootPageNum
                  omega
                · intro h2q
                  omega
            · refine ⟨?_, ?_, ?_⟩
              · show q < st.nextAlloc + 1
                omega
              · show q ≠ st.rootPageNum
                omega
              · intro h2q
                omega
        · show st.nextAlloc < st.nextAlloc + 1
          omega
        · show st.nextAlloc ≠ 2
          omega
        · intro q hq
          rcases ite_insert_ptrs2 _ _ _ q hq with h2 | h2
          · rcases node_ptrs_sib n _ _ _ _ q h2 with h3 | h3
            · obtain ⟨ha, hb, hclev⟩ := hnptr q h3
              refine ⟨?_, ?_, ?_⟩
              · show q < st.nextAlloc + 1
                omega
              · show q ≠ st.rootPageNum
                exact hb
              · intro h2q
                rw [ite_insert_level2]
                show n.level = 1
                exact hclev h2q
            · refine ⟨?_, ?_, ?_⟩
              · show q < st.nextAlloc + 1
                omega
              · show q ≠ st.rootPageNum
                omega
              · intro h2q
                omega
          · refine ⟨?_, ?_, ?_⟩
            · show q < st.nextAlloc + 1
              omega
            · show q ≠ st.rootPageNum
              omega
            · intro h2q
              omega
      · rfl
      · intro q hq
        rcases newRoot_ptrs _ _ _ q hq with h2 | h2 | h2
        · have h3 : q = st.rootPageNum := h2
          refine ⟨?_, ?_⟩
          · show q < st.nextAlloc + 1
            omega
          · intro h2q
            exact absurd (h3.symm.trans h2q) hc2r
        · have h3 : q = st.nextAlloc := h2
          refine ⟨?_, ?_⟩
          · show q < st.nextAlloc + 1
            omega
          · intro h2q
            omega
        · have h3 : q = 0 := h2
          refine ⟨?_, ?_⟩
          · show q < st.nextAlloc + 1
            omega
          · intro h2q
            omega
    · show st.nextAlloc ≤ st.nextAlloc + 1 + 1
      omega
    · intro hne
      exact absurd rfl hne
    · intro pp hpp
      exact Option.noConfusion hpp
  · simp only [hroot, if_false, reduceIte]
    refine ⟨?_, ?_, ?_, ?_⟩
    · apply RootInv_write_nonleaf
      · apply RootInv_write_nonleaf
        · exact RootInv_bump st hInv
        · show curpagenum < st.nextAlloc + 1
          omega
        · exact hc2
        · intro q hq
          rcases ite_insert_ptrs _ _ _ q hq with h2 | h2
          · rcases node_ptrs_take n _ _ q h2 with h3 | h3
            · obtain ⟨ha, hb, hclev⟩ := hnptr q h3
              refine ⟨?_, ?_, ?_⟩
              · show q < st.nextAlloc + 1
                omega
              · show q ≠ st.rootPageNum
                exact hb
              · intro h2q
                rw [ite_insert_level]
                show n.level = 1
                exact hclev h2q
            · refine ⟨?_, ?_, ?_⟩
              · show q < st.nextAlloc + 1
                omega
              · show q ≠ st.rootPageNum
                omega
              · intro h2q
                omega
          · refine ⟨?_, ?_, ?_⟩
            · show q < st.nextAlloc + 1
              omega
            · show q ≠ st.rootPageNum
              omega
            · intro h2q
              omega
      · show st.nextAlloc < st.nextAlloc + 1
        omega
      · show st.nextAlloc ≠ 2
        omega
      · intro q hq
        rcases ite_insert_ptrs2 _ _ _ q hq with h2 | h2
        · rcases node_ptrs_sib n _ _ _ _ q h2 with h3 | h3
          · obtain ⟨ha, hb, hclev⟩ := hnptr q h3
            refine ⟨?_, ?_, ?_⟩
            · show q < st.nextAlloc + 1
              omega
            · show q ≠ st.rootPageNum
              exact hb
            · intro h2q
              rw [ite_insert_level2]
              show n.level = 1
              exact hclev h2q
          · refine ⟨?_, ?_, ?_⟩
            · show q < st.nextAlloc + 1
              omega
            · show q ≠ st.rootPageNum
              omega
            · intro h2q
              omega
        · refine ⟨?_, ?_, ?_⟩
          · show q < st.nextAlloc + 1
            omega
          · show q ≠ st.rootPageNum
            omega
          · intro h2q
            omega
    · show st.nextAlloc ≤ st.nextAlloc + 1
      omega
    · intro _
      rfl
    · intro pp hpp
      injection hpp with hpp
      subst hpp
      refine ⟨?_, ?_, ?_, ?_⟩
      · show st.nextAlloc ≤ st.nextAlloc
        exact Nat.le_refl _
      · show st.nextAlloc < st.nextAlloc + 1
        omega
      · show st.nextAlloc ≠ st.rootPageNum
        omega
      · show 2 < st.nextAlloc
        exact ha2

/-- The recursive insert preserves the root-identity invariant, for any
fuel.  The auxiliary conclusions of the induction: allocation only moves
forward; a call on a non-root page never changes the root; a promoted pair
always names a freshly allocated page that is neither the root nor page 2. -/
theorem insertRec_RootInv (fuel : Nat) :
    ∀ (st : BTState) (pair : LeafSlot) (currNum : Nat) (isLeaf : Int),
      RootInv st → currNum < st.nextAlloc →
      (currNum = 2 → isLeaf ≠ 0) →
      (currNum = st.rootPageNum → st.rootPageNum ≠ 2 → isLeaf = 0) →
      RootInv (insertRec fuel st pair currNum isLeaf).1 ∧
      st.nextAlloc ≤ (insertRec fuel st pair currNum isLeaf).1.nextAlloc ∧
      (currNum ≠ st.rootPageNum →
        (insertRec fuel st pair currNum isLeaf).1.rootPageNum = st.rootPageNum) ∧
      (∀ pp, (insertRec fuel st pair currNum isLeaf).2 = some pp →
        st.nextAlloc ≤ pp.pageNo ∧
        pp.pageNo < (insertRec fuel st pair currNum isLeaf).1.nextAlloc ∧
        pp.pageNo ≠ (insertRec fuel st pair currNum isLeaf).1.rootPageNum ∧
        2 < pp.pageNo) := by
  induction fuel with
  | zero =>
      intro st pair currNum isLeaf hInv hcur h2c h4c
      rw [insertRec]
      exact ⟨hInv, Nat.le_refl _, fun _ => rfl, fun pp hpp => Option.noConfusion hpp⟩
  | succ m ih =>
      intro st pair currNum isLeaf hInv hcur h2c h4c
      rw [insertRec]
      by_cases hL : isLeaf = 0
      · rw [if_pos hL]
        cases hsel : selectChildInsert (asNonLeaf (st.store currNum)).keyArray
            (asNonLeaf (st.store currNum)).pageNoArray pair.1 with
        | none =>
            simp only [hsel]
            exact ⟨hInv, by simp, by simp, by simp⟩
        | some childPg =>
            simp only [hsel]
            have hmem : childPg ∈ (asNonLeaf (st.store currNum)).pageNoArray :=
              selectChildInsert_mem _ _ _ _ hsel
            obtain ⟨hclt, hcne, hclev⟩ := child_ptr_ok st currNum hInv childPg hmem
            obtain ⟨hInv2, hmono2, hpres2, hprom2⟩ := ih st pair childPg
              (asNonLeaf (st.store currNum)).level hInv hclt
              (fun hc2 => by rw [hclev hc2]; exact one_ne_zero)
              (fun hcr => absurd hcr hcne)
            cases hr2 : (insertRec m st pair childPg
                (asNonLeaf (st.store currNum)).level).2 with
            | none =>
                simp only [hr2]
                exact ⟨hInv2, hmono2, fun _ => hpres2 hcne,
                  fun pp hpp => Option.noConfusion hpp⟩
            | some pp =>
                simp only [hr2]
                obtain ⟨hpa, hpb, hpc, hpd⟩ := hprom2 pp hr2
                by_cases hspace : (asNonLeaf ((insertRec m st pair childPg
                    (asNonLeaf (st.store currNum)).level).1.store
                      currNum)).pageNoArray.getD INTARRAYNONLEAFSIZE 0 = 0
                · simp only [hspace, if_true, reduceIte]
                  refine ⟨?_, ?_, ?_, fun pp2 hpp2 => Option.noConfusion hpp2⟩
                  · apply RootInv_write_nonleaf
                    · exact hInv2
                    · omega
                    · exact fun hc => (h2c hc) hL
                    · intro q hq
                      rcases insert_nonleaf_ptrs pp pp _ q hq with hin | hq2 | hq2
                      · obtain ⟨ha, hb, hc⟩ := child_ptr_ok _ currNum hInv2 q hin
                        refine ⟨ha, hb, ?_⟩
                        intro hq2
                        rw [insert_nonleaf_level]
                        exact hc hq2
                      · refine ⟨?_, ?_, ?_⟩
                        · omega
                        · intro hc
                          rw [hq2] at hc
                          exact hpc hc
                        · intro hq3
                          omega
                      · refine ⟨?_, ?_, ?_⟩
                        · omega
                        · intro hc
                          rw [hq2] at hc
                          exact hpc hc
                        · intro hq3
                          omega
                  · exact hmono2
                  · intro hne
                    exact hpres2 hcne
                · simp only [hspace, if_false, reduceIte]
                  obtain ⟨hs1, hs2, hs3, hs4⟩ := split_nonleaf_RootInv
                    (insertRec m st pair childPg (asNonLeaf (st.store currNum)).level).1
                    currNum (asNonLeaf ((insertRec m st pair childPg
                      (asNonLeaf (st.store currNum)).level).1.store currNum)) pp hInv2
                    (by omega) (fun hc => (h2c hc) hL)
                    (child_ptr_ok _ currNum hInv2) ⟨hpb, hpc, hpd⟩
                  refine ⟨hs1, by omega, ?_, ?_⟩
                  · intro hne
                    rw [hs3 ?_]
                    · exact hpres2 hcne
                    · rw [hpres2 hcne]
                      exact hne
                  · intro pp2 hpp2
                    obtain ⟨hq1, hq2, hq3, hq4⟩ := hs4 pp2 hpp2
                    refine ⟨by omega, hq2, hq3, hq4⟩
      · rw [if_neg hL]
        by_cases hguard : ((asLeaf (st.store currNum)).entries.getD (INTARRAYLEAFSIZE - 1)
            zeroLeafSlot).2.slot_number = 0
        · simp only [hguard, if_true, reduceIte]
          refine ⟨?_, Nat.le_of_eq rfl, fun _ => rfl,
            fun pp hpp => Option.noConfusion hpp⟩
          apply RootInv_write_leaf
          · exact hInv
          · exact hcur
          · intro hne2 heq
            exact hL (h4c heq hne2)
        · simp only [hguard, if_false, reduceIte]
          exact split_leaf_RootInv st _ currNum pair hInv hcur
            (fun heq => by
              by_cases h2r : st.rootPageNum = 2
              · exact h2r
              · exact absurd (h4c heq h2r) hL)

/-- `insertEntry` preserves the root-identity invariant: the root is treated
as a leaf exactly when `rootPageNum = 2`, which matches the invariant's
characterisation of the root page. -/
theorem insertEntry_RootInv (st : BTState) (fuel : Nat) (key : Int) (rid : RecordId)
    (hInv : RootInv st) : RootInv (insertEntry st fuel key rid) := by
  have hrlt : st.rootPageNum < st.nextAlloc := hInv.2.2.2.1
  unfold insertEntry
  by_cases h2 : st.rootPageNum = 2
  · rw [if_pos h2]
    exact (insertRec_RootInv fuel st (key, rid) st.rootPageNum 1 hInv hrlt
      (fun _ => one_ne_zero) (fun _ hne => absurd h2 hne)).1
  · rw [if_neg h2]
    exact (insertRec_RootInv fuel st (key, rid) st.rootPageNum 0 hInv hrlt
      (fun hc => absurd hc h2) (fun _ _ => rfl)).1

/-- Every reachable state satisfies the root-identity invariant. -/
theorem Reachable_RootInv (st : BTState) (h : Reachable st) : RootInv st := by
  induction h with
  | init key rid => exact RootInv_initialState key rid
  | step st2 fuel key rid _ ih => exact insertEntry_RootInv st2 fuel key rid ih

/-- **C9.** In every index state reachable through the constructor and any
sequence of `insertEntry` calls, the root page holds a leaf node if and only
if `rootPageNum == 2`: page 2 (the initial root leaf) remains a leaf forever,
and every root installed by root replacement is an internal (non-leaf) page
whose page number is greater than 2 — so the test `rootPageNum == 2` that
`insertEntry` and `startScan` use to decide whether to interpret the root
page as a leaf or as an internal node is sound. -/
theorem root_leaf_iff_page_two (st : BTState) (h : Reachable st) :
    ((∃ l, st.store st.rootPageNum = some (Node.leaf l)) ↔ st.rootPageNum = 2) ∧
    (∃ l, st.store 2 = some (Node.leaf l)) ∧
    (st.rootPageNum ≠ 2 →
      2 < st.rootPageNum ∧ ∃ n, st.store st.rootPageNum = some (Node.nonleaf n)) := by
  obtain ⟨h2l, hroot, -, -, -, -⟩ := Reachable_RootInv st h
  refine ⟨⟨?_, ?_⟩, h2l, ?_⟩
  · rintro ⟨l, hl⟩
    rcases hroot with h2 | ⟨hgt, n, hn⟩
    · exact h2
    · rw [hn] at hl
      exact absurd hl (by simp)
  · intro h2
    rw [h2]
    exact h2l
  · intro hne
    rcases hroot with h2 | ⟨hgt, n, hn⟩
    · exact absurd h2 hne
    · exact ⟨hgt, n, hn⟩

/-- Witness for C9 at a concrete reachable state (the fresh index holding
one record). -/
theorem root_leaf_iff_page_two_witness :
    ((∃ l, (initialState 5 ⟨1, 1⟩).store (initialState 5 ⟨1, 1⟩).rootPageNum =
        some (Node.leaf l)) ↔ (initialState 5 ⟨1, 1⟩).rootPageNum = 2) ∧
    (∃ l, (initialState 5 ⟨1, 1⟩).store 2 = some (Node.leaf l)) ∧
    ((initialState 5 ⟨1, 1⟩).rootPageNum ≠ 2 →
      2 < (initialState 5 ⟨1, 1⟩).rootPageNum ∧
      ∃ n, (initialState 5 ⟨1, 1⟩).store (initialState 5 ⟨1, 1⟩).rootPageNum =
        some (Node.nonleaf n)) :=
  root_leaf_iff_page_two (initialState 5 ⟨1, 1⟩) (Reachable.init 5 ⟨1, 1⟩)

end BTreeSpec
